import Mathlib

/-!
# pmatrix: line reader, text helpers and the main program

A shallow embedding of `src/LineReader.cpp` and of `src/main.cpp`.

Bytes (`char`) are natural numbers; only equality tests against the
constants 0, 9, 10, 13 and 32 and, in `getUTF8size`, a test of the two highest
bits are performed on them, so signedness of `char` plays no role.  The input
stream is the list of bytes not yet extracted; the output is the list of bytes
written to `cout`, `endl` being the byte 10.
The counters `xcount` and `bcount` and the limit `m_maxBytes` are C `int`s;
they are embedded as unbounded integers (a counter never exceeds the number
of bytes read in one call plus one).  The `unsigned` values of `main.cpp`
(`nrows`, `ncols`, the column widths) are natural numbers; none of them
exceeds 10000 or the length of a line.
-/

namespace PMatrix

/-! ## LineReader (src/LineReader.h, src/LineReader.cpp) -/

/-- The attributes of `class LineReader`: the stream `m_src` (its unread
bytes), `m_maxBytes`, `m_recent` and `m_line`. -/
structure LineReader where
  src : List Nat
  maxBytes : Int
  recent : Nat
  line : List Nat
deriving DecidableEq, Repr

/-- The outcome of the `while ( m_src.get(c) )` loop of `readLine`: the
returned value together with the stream, `m_recent` and `m_line` it leaves. -/
structure LoopOut where
  ret : Int
  src : List Nat
  recent : Nat
  line : List Nat
deriving DecidableEq, Repr

/-- The constructor `LineReader::LineReader(src, maxBytes)`. -/
def LineReader.new (src : List Nat) (maxBytes : Int) : LineReader :=
  { src := src, maxBytes := maxBytes, recent := 0, line := [] }

/-- The final statement of `readLine`: `return (xcount > 0) ? 1 : 0;`. -/
def checkExtracted (xcount : Int) : Int :=
  if xcount > 0 then 1 else 0

/-- The `while ( m_src.get(c) )` loop of `readLine` (LineReader.cpp 85-143),
started with the counters `xcount`, `bcount`, the recent byte and the line
buffer.  An empty stream makes `get` fail, which leaves the loop. -/
def readLoop (maxBytes : Int) :
    List Nat → Int → Int → Nat → List Nat → LoopOut
  | [], xcount, _, recent, line =>
      { ret := checkExtracted xcount, src := [], recent := recent, line := line }
  | c :: rest, xcount, bcount, recent, line =>
      if c = 13 then
        { ret := checkExtracted (xcount + 1), src := rest, recent := c, line := line }
      else if c = 10 then
        if recent ≠ 13 then
          { ret := checkExtracted (xcount + 1), src := rest, recent := c, line := line }
        else
          readLoop maxBytes rest xcount bcount c line
      else
        if bcount + 1 > maxBytes then
          { ret := 2, src := rest, recent := c, line := line }
        else
          readLoop maxBytes rest (xcount + 1) (bcount + 1) c (line ++ [c])

/-- The test of the `continue long line` block (LineReader.cpp 72-74). -/
def isPlain (b : Nat) : Bool :=
  b != 0 && b != 10 && b != 13

/-- The method `LineReader::readLine`: the returned value and the reader
after the call. -/
def readLine (rd : LineReader) : Int × LineReader :=
  if rd.maxBytes < 1 then
    (0, rd)
  else
    let out :=
      if isPlain rd.recent then
        readLoop rd.maxBytes rd.src 1 1 rd.recent [rd.recent]
      else
        readLoop rd.maxBytes rd.src 0 0 rd.recent []
    (out.ret, { rd with src := out.src, recent := out.recent, line := out.line })

/-- The method `LineReader::getLine`. -/
def getLine (rd : LineReader) : List Nat :=
  rd.line

/-- The reader after `n` successive calls of `readLine`. -/
def afterCalls : Nat → LineReader → LineReader
  | 0, rd => rd
  | n + 1, rd => afterCalls n (readLine rd).2

/-- The pairs (value returned by `readLine`, `getLine()` after the call) of
`n` successive calls. -/
def outputs : Nat → LineReader → List (Int × List Nat)
  | 0, _ => []
  | n + 1, rd => ((readLine rd).1, getLine (readLine rd).2) :: outputs n (readLine rd).2

/-- Every line of `lines` followed by the terminator `term`. -/
def terminated (term : List Nat) : List (List Nat) → List Nat
  | [] => []
  | l :: ls => l ++ term ++ terminated term ls

/-- No byte of the string is CR (13) or LF (10). -/
def NoCRLF (s : List Nat) : Prop :=
  ∀ b ∈ s, b ≠ 13 ∧ b ≠ 10

instance (s : List Nat) : Decidable (NoCRLF s) := by
  unfold NoCRLF
  infer_instance

/-- The bytes re-seeded into the line buffer at the start of a call. -/
def seed (recent : Nat) : List Nat :=
  if isPlain recent then [recent] else []

/-- The recent byte after the plain bytes `s` have been extracted. -/
def recentAfter (recent : Nat) : List Nat → Nat
  | [] => recent
  | c :: s => recentAfter c s

/-! ## Text helpers and the collecting loop (src/main.cpp) -/

/-- The test `(c == 9) || (c == 32)` of `getIndent` (main.cpp 90). -/
def isHorizontal (c : Nat) : Bool :=
  c == 9 || c == 32

/-- The loop of `getIndent` (main.cpp 84-100) over the unread part of the
line, with the indent gathered so far; any other byte breaks the loop. -/
def getIndentLoop : List Nat → List Nat → List Nat
  | [], indent => indent
  | c :: rest, indent =>
      if isHorizontal c then getIndentLoop rest (indent ++ [c]) else indent

/-- The function `getIndent` (main.cpp 79-103). -/
def getIndent (line : List Nat) : List Nat :=
  getIndentLoop line []

/-- The test `(c == 9) || (c == 10) || (c == 13) || (c == 32)` of `trim`
(main.cpp 127-130). -/
def isWhitespace (c : Nat) : Bool :=
  c == 9 || c == 10 || c == 13 || c == 32

/-- The loop of `trim` (main.cpp 121-155) over the unread part of the line,
with the strings `trimmed` and `buffer`. -/
def trimLoop : List Nat → List Nat → List Nat → List Nat
  | [], trimmed, _ => trimmed
  | c :: rest, trimmed, buffer =>
      if isWhitespace c then
        if !trimmed.isEmpty then trimLoop rest trimmed (buffer ++ [c])
        else trimLoop rest trimmed buffer
      else
        if !buffer.isEmpty then trimLoop rest ((trimmed ++ buffer) ++ [c]) []
        else trimLoop rest (trimmed ++ [c]) buffer

/-- The function `trim` (main.cpp 112-158). -/
def trim (line : List Nat) : List Nat :=
  trimLoop line [] []

/-- The line without its longest prefix and its longest suffix of whitespace
bytes, the way the description of `trim` puts it. -/
def stripEnds (line : List Nat) : List Nat :=
  (line.dropWhile isWhitespace).rdropWhile isWhitespace

/-- The variables of `main` that the reading loop changes: `entries`,
`ncols` and `indent`. -/
structure Collector where
  entries : List (List Nat)
  ncols : Nat
  indent : List Nat
deriving DecidableEq, Repr

/-- The variables of `main` before the reading loop (main.cpp 252-260). -/
def Collector.init : Collector :=
  { entries := [], ncols := 0, indent := [] }

/-- The string "...". -/
def rowEndMarker : List Nat := [46, 46, 46]

/-- The string ".". -/
def emptyMarker : List Nat := [46]

/-- The body of the reading loop of `main` for a line the reader returned
with value 1 (main.cpp 281-327); `none` stands for `return 1` after
"too many entries given".  The count stored in `ncols` is at most 10000, so
the conversion to `unsigned` keeps it. -/
def collectLine (st : Collector) (raw : List Nat) : Option Collector :=
  let indent := if st.entries.isEmpty then getIndent raw else st.indent
  let line := trim raw
  if line.isEmpty then
    some { st with indent := indent }
  else
    let st1 : Collector :=
      if line = rowEndMarker then
        if st.ncols = 0 then { st with indent := indent, ncols := st.entries.length }
        else { st with indent := indent }
      else if line = emptyMarker then
        { st with indent := indent, entries := st.entries ++ [[]] }
      else
        { st with indent := indent, entries := st.entries ++ [line] }
    if st1.entries.length > 10000 then none else some st1

/-- The reading loop of `main` over the lines the reader delivers one after
the other, each with value 1. -/
def collectLines : Collector → List (List Nat) → Option Collector
  | st, [] => some st
  | st, raw :: rest =>
      match collectLine st raw with
      | none => none
      | some st1 => collectLines st1 rest

/-- The entries the lines stand for according to the description of the
collector: the trimmed lines that are neither empty nor "...", in input
order, with "." replaced by the empty string. -/
def expectedEntries (lines : List (List Nat)) : List (List Nat) :=
  ((lines.map trim).filter (fun t => decide (t ≠ []) && decide (t ≠ rowEndMarker))).map
    (fun t => if t = emptyMarker then [] else t)

/-- The ways `main` ends with exit status 1: "line exceeds maximum number of
bytes", "too many entries given", "no entries given" and "unable to determin
matrix size". -/
inductive Failure where
  | lineTooLong
  | tooManyEntries
  | noEntries
  | ambiguousShape
deriving DecidableEq, Repr

/-- How a part of `main` ends: with `return 1` after one of the messages, or
with a value. -/
inductive Outcome (α : Type) where
  | failed (f : Failure)
  | done (a : α)
deriving DecidableEq, Repr

/-- The reading loop of `main` (main.cpp 268-328) driven by the reader, for
at most `fuel` calls of `readLine`; `none` says the loop has not ended within
`fuel` calls. -/
def mainLoop : Nat → LineReader → Collector → Option (Outcome Collector)
  | 0, _, _ => none
  | fuel + 1, rd, st =>
      if (readLine rd).1 = 0 then
        some (.done st)
      else if (readLine rd).1 = 2 then
        some (.failed .lineTooLong)
      else
        match collectLine st (getLine (readLine rd).2) with
        | none => some (.failed .tooManyEntries)
        | some st1 => mainLoop fuel (readLine rd).2 st1

/-- Modelled from the spec: the library call `static_cast<int>( sqrt(n) )` of
main.cpp 344, which is not part of the repository; the spec calls its value
the integer square root of the entry count.  (The entry count is at most
10000, far inside the range in which the square root of a `double` is exact
on perfect squares.) -/
def intSqrt (n : Nat) : Nat :=
  Nat.sqrt n

/-- The checks of `main` after the reading loop (main.cpp 330-376): the pair
`(nrows, ncols)` passed to `showMatrix`, or the failure. -/
def resolve (st : Collector) : Outcome (Nat × Nat) :=
  if st.entries.isEmpty then
    .failed .noEntries
  else if st.ncols = 0 then
    let root := intSqrt st.entries.length
    if root * root = st.entries.length then .done (root, root)
    else .done (st.entries.length, 1)
  else
    let nrows := st.entries.length / st.ncols
    if nrows * st.ncols ≠ st.entries.length then .failed .ambiguousShape
    else .done (nrows, st.ncols)

/-- The function `getUTF8size` (main.cpp 46-71).  A byte `c` passes the test
`(c & mask) != next` exactly when its two highest bits are not `10`; on the
byte value this is `c &&& 192 ≠ 128`, whether `char` is signed or not. -/
def getUTF8size (text : List Nat) : Nat :=
  text.foldl (fun n c => if c &&& 192 ≠ 128 then n + 1 else n) 0

/-- The width of column `j` found by the inner loop of main.cpp 180-197. -/
def columnWidth (entries : List (List Nat)) (nrows ncols j : Nat) : Nat :=
  (List.range nrows).foldl
    (fun w i => if getUTF8size (entries.getD (i * ncols + j) []) > w
      then getUTF8size (entries.getD (i * ncols + j) []) else w) 0

/-- What `cout << setw(w) << right << text` writes: `text` preceded by fill
characters (spaces) when its size in bytes is below `w`. -/
def writeRight (w : Nat) (text : List Nat) : List Nat :=
  List.replicate (w - text.length) 32 ++ text

/-- The text written for row `i` by the inner loop of main.cpp 214-227, added
to the output `out`. -/
def showRow (entries : List (List Nat)) (nrows ncols i : Nat) (out : List Nat) : List Nat :=
  (List.range ncols).foldl
    (fun o j => (if j > 0 then o ++ [32, 38, 32] else o)
      ++ writeRight (columnWidth entries nrows ncols j) (entries.getD (i * ncols + j) [])) out

/-- The function `showMatrix` (main.cpp 166-233): the bytes written to
`cout`, `endl` being the byte 10. -/
def showMatrix (indent environment : List Nat) (entries : List (List Nat))
    (nrows ncols : Nat) : List Nat :=
  let opened := indent ++ [92, 98, 101, 103, 105, 110, 123] ++ environment ++ [125] ++ [10]
    ++ indent ++ [32, 32]
  let rows := (List.range nrows).foldl
    (fun o i => showRow entries nrows ncols i
      (if i > 0 then o ++ [32, 92, 92] ++ [10] ++ indent ++ [32, 32] else o)) opened
  rows ++ [10] ++ indent ++ [92, 101, 110, 100, 123] ++ environment ++ [125] ++ [10]

/-- The string "pmatrix". -/
def pmatrixName : List Nat := [112, 109, 97, 116, 114, 105, 120]

/-- The function `main` (main.cpp 250-383) on the bytes of standard input,
with at most `fuel` calls of `readLine`: the bytes written to standard output
when `main` returns 0, or the failure when it returns 1. -/
def pmatrixMain (fuel : Nat) (input : List Nat) : Option (Outcome (List Nat)) :=
  match mainLoop fuel (LineReader.new input 2048) Collector.init with
  | none => none
  | some (.failed f) => some (.failed f)
  | some (.done st) =>
      match resolve st with
      | .failed f => some (.failed f)
      | .done shape =>
          some (.done (showMatrix st.indent pmatrixName st.entries shape.1 shape.2))

/-- The UTF-8 encoding of one code point. -/
def utf8Encode (cp : Nat) : List Nat :=
  if cp < 128 then [cp]
  else if cp < 2048 then [192 + cp / 64, 128 + cp % 64]
  else if cp < 65536 then [224 + cp / 4096, 128 + cp / 64 % 64, 128 + cp % 64]
  else [240 + cp / 262144, 128 + cp / 4096 % 64, 128 + cp / 64 % 64, 128 + cp % 64]

/-- The UTF-8 encoding of a sequence of code points. -/
def utf8EncodeAll (cps : List Nat) : List Nat :=
  (cps.map utf8Encode).flatten

/-- The lines of the first `n` calls of `readLine`, as `getLine()` gives
them. -/
def delivered (n : Nat) (rd : LineReader) : List (List Nat) :=
  (outputs n rd).map Prod.snd

/-- The output written so far is made of finished lines, each followed by
`endl`, and an unfinished line; every one of them starts with `indent` and
holds no byte 10. -/
def LinesSoFar (indent out : List Nat) : Prop :=
  ∃ (ls : List (List Nat)) (cur : List Nat), out = (ls.map (· ++ [10])).flatten ++ cur ∧
    (∀ l ∈ ls, 10 ∉ l ∧ indent <+: l) ∧ 10 ∉ cur ∧ indent <+: cur

/-- The bytes of a stream given as lines with the terminator byte that follows
each of them. -/
def segmentsStream (segs : List (List Nat × Nat)) : List Nat :=
  (segs.map (fun s => s.1 ++ [s.2])).flatten

/-- Every line is made of at most 2048 tab and space bytes and is followed by
LF or CR. -/
def BlankSegments (segs : List (List Nat × Nat)) : Prop :=
  ∀ s ∈ segs, (∀ b ∈ s.1, b = 9 ∨ b = 32) ∧ s.1.length ≤ 2048 ∧ (s.2 = 10 ∨ s.2 = 13)

/-- Every line of the list is free of CR and LF. -/
def AllNoCRLF (ls : List (List Nat)) : Prop :=
  ∀ l ∈ ls, NoCRLF l

instance (ls : List (List Nat)) : Decidable (AllNoCRLF ls) := by
  unfold AllNoCRLF
  infer_instance

/-- Streams and retained bytes of two readers that go through the same lines,
the first LF-terminated and the second CR-terminated. -/
def SimCR (sa : List Nat) (ra : Nat) (sb : List Nat) (rb : Nat) : Prop :=
  ra ≠ 13 ∧ seed ra = seed rb ∧
    ∃ ls, AllNoCRLF ls ∧ sa = terminated [10] ls ∧ sb = terminated [13] ls

/-- Streams and retained bytes of two readers that go through the same lines,
the first LF-terminated and the second CR+LF-terminated; the second reader
may still have the LF of the last terminator in its stream. -/
def SimCRLF (sa : List Nat) (ra : Nat) (sb : List Nat) (rb : Nat) : Prop :=
  ra ≠ 13 ∧ ∃ ls, AllNoCRLF ls ∧ sa = terminated [10] ls ∧
    ((sb = terminated [13, 10] ls ∧ rb ≠ 13 ∧ seed ra = seed rb) ∨
      (sb = 10 :: terminated [13, 10] ls ∧ rb = 13 ∧ seed ra = []))

/-! ## Auxiliary facts about the extraction loop -/

theorem noCRLF_tail {c : Nat} {s : List Nat} (h : NoCRLF (c :: s)) : NoCRLF s :=
  fun b hb => h b (List.mem_cons_of_mem c hb)

theorem noCRLF_head {c : Nat} {s : List Nat} (h : NoCRLF (c :: s)) : c ≠ 13 ∧ c ≠ 10 :=
  h c (List.mem_cons_self c s)

theorem recentAfter_ne_cr (s : List Nat) (r : Nat) (hs : NoCRLF s) (hr : r ≠ 13) :
    recentAfter r s ≠ 13 := by
  induction s generalizing r with
  | nil => simpa [recentAfter] using hr
  | cons c s ih => exact ih c (noCRLF_tail hs) (noCRLF_head hs).1

theorem isPlain_iff (b : Nat) : isPlain b = true ↔ b ≠ 0 ∧ b ≠ 10 ∧ b ≠ 13 := by
  simp [isPlain, and_assoc]

theorem seed_noCRLF (r : Nat) : NoCRLF (seed r) := by
  intro b hb
  unfold seed at hb
  split at hb
  · rename_i h
    rw [isPlain_iff] at h
    simp only [List.mem_singleton] at hb
    subst hb
    exact ⟨h.2.2, h.2.1⟩
  · simp at hb

theorem seed_of_plain (c : Nat) (h : isPlain c = true) : seed c = [c] := by
  simp [seed, h]

theorem seed_length_le (r : Nat) : (seed r).length ≤ 1 := by
  unfold seed
  split <;> simp

/-- Plain bytes that fit below the limit are all appended to the line. -/
theorem readLoop_plain (m : Int) (s tail : List Nat) (xc bc : Int) (r : Nat) (ln : List Nat)
    (hs : NoCRLF s) (hfit : bc + s.length ≤ m) :
    readLoop m (s ++ tail) xc bc r ln
      = readLoop m tail (xc + s.length) (bc + s.length) (recentAfter r s) (ln ++ s) := by
  induction s generalizing xc bc r ln with
  | nil => simp [recentAfter]
  | cons c s ih =>
    have hc := (noCRLF_head hs)
    have hlen : ((c :: s).length : Int) = (s.length : Int) + 1 := by simp
    rw [hlen] at hfit
    have hno : ¬ (bc + 1 > m) := by omega
    rw [List.cons_append, readLoop, if_neg hc.1, if_neg hc.2, if_neg hno,
      ih (xc + 1) (bc + 1) c (ln ++ [c]) (noCRLF_tail hs) (by omega)]
    simp only [recentAfter, hlen, List.append_assoc, List.singleton_append]
    congr 1 <;> ring

/-- The byte that makes the buffered count exceed the limit ends the call
with 2; it is kept as the recent byte and not appended. -/
theorem readLoop_overflow (m : Int) (s tail : List Nat) (k : Nat) (xc bc : Int) (r : Nat)
    (ln : List Nat) (hs : NoCRLF s) (hk : bc + (k : Int) = m) (hlen : k < s.length) :
    readLoop m (s ++ tail) xc bc r ln
      = { ret := 2, src := s.drop (k + 1) ++ tail, recent := s.getD k 0,
          line := ln ++ s.take k } := by
  induction s generalizing k xc bc r ln with
  | nil => simp at hlen
  | cons c s ih =>
    have hc := (noCRLF_head hs)
    cases k with
    | zero =>
      have hov : bc + 1 > m := by simp at hk; omega
      rw [List.cons_append, readLoop, if_neg hc.1, if_neg hc.2, if_pos hov]
      simp
    | succ k =>
      have hno : ¬ (bc + 1 > m) := by push_cast at hk; omega
      rw [List.cons_append, readLoop, if_neg hc.1, if_neg hc.2, if_neg hno,
        ih k (xc + 1) (bc + 1) c (ln ++ [c]) (noCRLF_tail hs) (by push_cast at hk; omega)
          (by simpa using hlen)]
      simp

/-- A terminator byte read when the recent byte is not CR ends the line. -/
theorem readLoop_terminator (m : Int) (t : Nat) (rest : List Nat) (xc bc : Int) (r : Nat)
    (ln : List Nat) (ht : t = 10 ∨ t = 13) (hr : r ≠ 13) :
    readLoop m (t :: rest) xc bc r ln
      = { ret := checkExtracted (xc + 1), src := rest, recent := t, line := ln } := by
  rcases ht with ht | ht
  · subst ht
    rw [readLoop, if_neg (by decide), if_pos rfl, if_pos hr]
  · subst ht
    rw [readLoop, if_pos rfl]

theorem checkExtracted_pos {x : Int} (h : 0 < x) : checkExtracted x = 1 := by
  simp [checkExtracted, h]

theorem readLine_eq (rd : LineReader) (h : 1 ≤ rd.maxBytes) :
    readLine rd =
      ((readLoop rd.maxBytes rd.src (seed rd.recent).length (seed rd.recent).length
          rd.recent (seed rd.recent)).ret,
        { rd with
          src := (readLoop rd.maxBytes rd.src (seed rd.recent).length (seed rd.recent).length
            rd.recent (seed rd.recent)).src,
          recent := (readLoop rd.maxBytes rd.src (seed rd.recent).length
            (seed rd.recent).length rd.recent (seed rd.recent)).recent,
          line := (readLoop rd.maxBytes rd.src (seed rd.recent).length (seed rd.recent).length
            rd.recent (seed rd.recent)).line }) := by
  have hm : ¬ rd.maxBytes < 1 := by omega
  unfold readLine seed
  rw [if_neg hm]
  by_cases hp : isPlain rd.recent = true
  · simp [hp]
  · simp [hp]

/-- A line (re-seeded byte included) that fits below the limit and is
followed by a terminator is returned whole, with value 1. -/
theorem readLine_fits (rd : LineReader) (u rest : List Nat) (t : Nat)
    (hm : 1 ≤ rd.maxBytes) (hsrc : rd.src = u ++ t :: rest) (hu : NoCRLF u)
    (ht : t = 10 ∨ t = 13) (hr : rd.recent ≠ 13)
    (hfit : ((seed rd.recent ++ u).length : Int) ≤ rd.maxBytes) :
    readLine rd = (1, { rd with src := rest, recent := t, line := seed rd.recent ++ u }) := by
  rw [readLine_eq rd hm, hsrc]
  have hfit2 : ((seed rd.recent).length : Int) + u.length ≤ rd.maxBytes := by
    rw [List.length_append] at hfit
    push_cast at hfit
    exact hfit
  rw [readLoop_plain rd.maxBytes u (t :: rest) _ _ rd.recent (seed rd.recent) hu hfit2,
    readLoop_terminator rd.maxBytes t rest _ _ _ _ ht (recentAfter_ne_cr u rd.recent hu hr)]
  have hpos : (0 : Int) < ((seed rd.recent).length : Int) + u.length + 1 := by positivity
  simp only [checkExtracted_pos hpos]

/-- A line (re-seeded byte included) longer than the limit is cut after
`maxBytes` bytes, with value 2; the next byte becomes the recent byte. -/
theorem readLine_cut (rd : LineReader) (u tail : List Nat) (M : Nat)
    (hM : rd.maxBytes = (M : Int)) (hm : 1 ≤ M) (hsrc : rd.src = u ++ tail) (hu : NoCRLF u)
    (hlong : M < (seed rd.recent ++ u).length) :
    readLine rd = (2, { rd with
      src := (seed rd.recent ++ u).drop (M + 1) ++ tail,
      recent := (seed rd.recent ++ u).getD M 0,
      line := (seed rd.recent ++ u).take M }) := by
  have hm1 : 1 ≤ rd.maxBytes := by rw [hM]; exact_mod_cast hm
  rw [readLine_eq rd hm1, hsrc]
  have hsl := seed_length_le rd.recent
  rw [List.length_append] at hlong
  rw [readLoop_overflow rd.maxBytes u tail (M - (seed rd.recent).length) _ _ rd.recent
    (seed rd.recent) hu (by rw [hM]; omega) (by omega)]
  have hk : M - (seed rd.recent).length + 1 = M + 1 - (seed rd.recent).length := by omega
  have h1 : List.drop (M + 1) (seed rd.recent ++ u)
      = List.drop (M - (seed rd.recent).length + 1) u := by
    rw [List.drop_append_eq_append_drop, List.drop_eq_nil_of_le (by omega), hk]
    simp
  have h2 : (seed rd.recent ++ u).getD M 0 = u.getD (M - (seed rd.recent).length) 0 := by
    unfold seed
    split
    · obtain ⟨M, rfl⟩ : ∃ j, M = j + 1 := ⟨M - 1, by omega⟩
      simp
    · simp
  have h3 : List.take M (seed rd.recent ++ u)
      = seed rd.recent ++ List.take (M - (seed rd.recent).length) u := by
    rw [List.take_append_eq_append_take, List.take_of_length_le (by omega)]
  rw [h1, h2, h3]

theorem drop_eq_getD_cons (w : List Nat) (M : Nat) (h : M < w.length) :
    w.drop M = w.getD M 0 :: w.drop (M + 1) := by
  rw [List.getD_eq_getElem w 0 h]
  exact List.drop_eq_getElem_cons h

theorem getD_mem (w : List Nat) (M : Nat) (h : M < w.length) : w.getD M 0 ∈ w := by
  rw [List.getD_eq_getElem w 0 h]
  exact List.getElem_mem h

/-- Successive calls on a terminated line return 2 some number of times and
then 1, and the returned pieces concatenate to the line, as long as no byte
that exceeds the limit is 0. -/
theorem outputs_reconstruct (M : Nat) (hM : 1 ≤ M) (t : Nat) (rest : List Nat)
    (ht : t = 10 ∨ t = 13) (N : Nat) :
    ∀ (rd : LineReader) (u : List Nat), u.length ≤ N → rd.maxBytes = (M : Int) →
      rd.src = u ++ t :: rest → NoCRLF u → rd.recent ≠ 13 →
      (∀ k, 0 < k → (seed rd.recent ++ u).getD (k * M) 1 ≠ 0) →
      ∃ n, (outputs (n + 1) rd).map Prod.fst = List.replicate n 2 ++ [1] ∧
        ((outputs (n + 1) rd).map Prod.snd).flatten = seed rd.recent ++ u := by
  induction N with
  | zero =>
    intro rd u hlen hmax hsrc hu hr _
    have hu0 : u = [] := List.length_eq_zero.mp (by omega)
    subst hu0
    have hsl := seed_length_le rd.recent
    refine ⟨0, ?_⟩
    have hfit : ((seed rd.recent ++ ([] : List Nat)).length : Int) ≤ rd.maxBytes := by
      rw [hmax]; simp only [List.append_nil]; exact_mod_cast (by omega : (seed rd.recent).length ≤ M)
    have hm1 : 1 ≤ rd.maxBytes := by rw [hmax]; exact_mod_cast hM
    simp [outputs, getLine, readLine_fits rd [] rest t hm1 hsrc hu ht hr hfit]
  | succ N ih =>
    intro rd u hlen hmax hsrc hu hr hz
    have hsl := seed_length_le rd.recent
    have hm1 : 1 ≤ rd.maxBytes := by rw [hmax]; exact_mod_cast hM
    by_cases hfitN : (seed rd.recent ++ u).length ≤ M
    · refine ⟨0, ?_⟩
      have hfit : ((seed rd.recent ++ u).length : Int) ≤ rd.maxBytes := by
        rw [hmax]; exact_mod_cast hfitN
      simp [outputs, getLine, readLine_fits rd u rest t hm1 hsrc hu ht hr hfit]
    · have hlong : M < (seed rd.recent ++ u).length := by omega
      have hcut := readLine_cut rd u (t :: rest) M hmax hM hsrc hu hlong
      have hw : NoCRLF (seed rd.recent ++ u) := by
        intro b hb
        rcases List.mem_append.mp hb with hb | hb
        · exact seed_noCRLF rd.recent b hb
        · exact hu b hb
      have hcmem := getD_mem _ M hlong
      have hc := hw _ hcmem
      have hc0 : (seed rd.recent ++ u).getD M 0 ≠ 0 := by
        have := hz 1 Nat.one_pos
        rw [Nat.one_mul, List.getD_eq_getElem _ _ hlong] at this
        rw [List.getD_eq_getElem _ _ hlong]
        exact this
      have hplain : isPlain ((seed rd.recent ++ u).getD M 0) = true := by
        rw [isPlain_iff]; exact ⟨hc0, hc.2, hc.1⟩
      have hseed := seed_of_plain _ hplain
      have hu2 : NoCRLF ((seed rd.recent ++ u).drop (M + 1)) :=
        fun b hb => hw b (List.mem_of_mem_drop hb)
      have hlen2 : ((seed rd.recent ++ u).drop (M + 1)).length ≤ N := by
        rw [List.length_drop, List.length_append]; omega
      obtain ⟨n, hn1, hn2⟩ := ih (readLine rd).2 ((seed rd.recent ++ u).drop (M + 1)) hlen2
        (by rw [hcut]; exact hmax) (by rw [hcut]) hu2 (by rw [hcut]; exact hc.1)
        (by
          intro k hk
          have := hz (k + 1) (Nat.succ_pos k)
          rw [hcut]
          simp only [hseed, List.singleton_append]
          rw [← drop_eq_getD_cons _ M hlong, List.getD_eq_getElem?_getD, List.getElem?_drop,
            ← List.getD_eq_getElem?_getD]
          rwa [show M + k * M = (k + 1) * M by ring])
      refine ⟨n + 1, ?_, ?_⟩
      · rw [outputs, List.map_cons, hn1]
        simp [hcut, List.replicate_succ]
      · rw [outputs, List.map_cons, List.flatten_cons, hn2]
        rw [hcut]
        simp only [getLine, hseed, List.singleton_append]
        rw [← drop_eq_getD_cons _ M hlong, List.take_append_drop]

/-! ## The line-length limit -/

/-- C3: on a fresh reader with `maxBytes >= 1`, a CR/LF-free string `s`
followed by a terminator (LF, or CR with anything after it, which covers
CR+LF) is returned whole with value 1 when its length equals `maxBytes`, and
is cut to its first `maxBytes` bytes with value 2 when it is one byte longer. -/
theorem readLine_at_limit (m : Int) (s rest : List Nat) (t : Nat) (hm : 1 ≤ m)
    (hs : NoCRLF s) (ht : t = 10 ∨ t = 13) :
    ((s.length : Int) = m →
      (readLine (LineReader.new (s ++ t :: rest) m)).1 = 1 ∧
        getLine (readLine (LineReader.new (s ++ t :: rest) m)).2 = s) ∧
    ((s.length : Int) = m + 1 →
      (readLine (LineReader.new (s ++ t :: rest) m)).1 = 2 ∧
        getLine (readLine (LineReader.new (s ++ t :: rest) m)).2 = s.take m.toNat) := by
  have hseed : seed (LineReader.new (s ++ t :: rest) m).recent = [] := by
    simp [LineReader.new, seed, isPlain]
  constructor
  · intro hlen
    have h := readLine_fits (LineReader.new (s ++ t :: rest) m) s rest t hm rfl hs ht
      (by simp [LineReader.new]) (by rw [hseed]; simpa [LineReader.new] using hlen.le)
    rw [h, hseed]
    exact ⟨rfl, rfl⟩
  · intro hlen
    have hM : (LineReader.new (s ++ t :: rest) m).maxBytes = ((m.toNat : Nat) : Int) := by
      simp [LineReader.new, Int.toNat_of_nonneg (by omega : (0 : Int) ≤ m)]
    have h := readLine_cut (LineReader.new (s ++ t :: rest) m) s (t :: rest) m.toNat hM
      (by omega) rfl hs (by rw [hseed]; simp only [List.nil_append]; omega)
    rw [h, hseed]
    exact ⟨rfl, rfl⟩

/-- Witness for C3: limit 2, the line "ab" followed by LF and the line "abc"
followed by CR+LF. -/
theorem readLine_at_limit_witness :
    ((readLine (LineReader.new ([97, 98] ++ 10 :: [99]) 2)).1 = 1 ∧
        getLine (readLine (LineReader.new ([97, 98] ++ 10 :: [99]) 2)).2 = [97, 98]) ∧
      ((readLine (LineReader.new ([97, 98, 99] ++ 13 :: [10]) 2)).1 = 2 ∧
        getLine (readLine (LineReader.new ([97, 98, 99] ++ 13 :: [10]) 2)).2
          = ([97, 98, 99] : List Nat).take (2 : Int).toNat) :=
  ⟨(readLine_at_limit 2 [97, 98] [99] 10 (by decide) (by decide) (Or.inl rfl)).1 (by decide),
    (readLine_at_limit 2 [97, 98, 99] [10] 13 (by decide) (by decide) (Or.inr rfl)).2
      (by decide)⟩

/-- C4 as stated fails: with limit 1 the line "A\0" followed by LF comes
back as "A" (value 2) and then "" (value 1); the 0 byte is lost. -/
theorem resume_loses_nul :
    ¬ ∃ n, (outputs (n + 1) (LineReader.new [65, 0, 10] 1)).map Prod.fst
          = List.replicate n 2 ++ [1] ∧
        ((outputs (n + 1) (LineReader.new [65, 0, 10] 1)).map Prod.snd).flatten
          = [65, 0] := by
  have e1 : readLine (LineReader.new [65, 0, 10] 1)
      = (2, { src := [10], maxBytes := 1, recent := 0, line := [65] }) := by decide
  have e2 : readLine { src := [10], maxBytes := 1, recent := 0, line := [65] }
      = (1, { src := [], maxBytes := 1, recent := 10, line := [] }) := by decide
  rintro ⟨n, h1, h2⟩
  match n with
  | 0 => simp [outputs, e1] at h1
  | 1 => simp [outputs, e1, e2, getLine] at h2
  | n + 2 =>
    rw [outputs, outputs] at h1
    simp [e1, e2, List.replicate_succ] at h1

/-- C4 (amended): on a fresh reader with `maxBytes >= 1`, a CR/LF-free string
`s` followed by a terminator, in which every byte at an index that is a
positive multiple of `maxBytes` is not 0, makes `readLine` return 2 some
number of times and then 1, and the `getLine()` contents of those calls
concatenate to `s`. -/
theorem resume_reconstructs (m : Int) (s rest : List Nat) (t : Nat) (hm : 1 ≤ m)
    (hs : NoCRLF s) (ht : t = 10 ∨ t = 13)
    (hz : ∀ k, 0 < k → s.getD (k * m.toNat) 1 ≠ 0) :
    ∃ n, (outputs (n + 1) (LineReader.new (s ++ t :: rest) m)).map Prod.fst
          = List.replicate n 2 ++ [1] ∧
        ((outputs (n + 1) (LineReader.new (s ++ t :: rest) m)).map Prod.snd).flatten = s := by
  have hseed : seed (LineReader.new (s ++ t :: rest) m).recent = [] := by
    simp [LineReader.new, seed, isPlain]
  have hM : (LineReader.new (s ++ t :: rest) m).maxBytes = ((m.toNat : Nat) : Int) := by
    simp [LineReader.new, Int.toNat_of_nonneg (by omega : (0 : Int) ≤ m)]
  have h := outputs_reconstruct m.toNat (by omega) t rest ht s.length
    (LineReader.new (s ++ t :: rest) m) s le_rfl hM rfl hs (by simp [LineReader.new])
    (by rw [hseed]; simpa using hz)
  rw [hseed] at h
  simpa using h

/-- Witness for C4: limit 2 and the line "abcde" followed by CR. -/
theorem resume_reconstructs_witness :
    ∃ n, (outputs (n + 1) (LineReader.new ([97, 98, 99, 100, 101] ++ 13 :: []) 2)).map Prod.fst
          = List.replicate n 2 ++ [1] ∧
        ((outputs (n + 1) (LineReader.new ([97, 98, 99, 100, 101] ++ 13 :: []) 2)).map
          Prod.snd).flatten = [97, 98, 99, 100, 101] :=
  resume_reconstructs 2 [97, 98, 99, 100, 101] [] 13 (by decide) (by decide)
    (Or.inr rfl) (by
      intro k hk
      have h2 : ((2 : Int).toNat) = 2 := rfl
      rw [h2]
      match k with
      | 1 => decide
      | 2 => decide
      | k + 3 =>
        rw [List.getD_eq_default]
        · decide
        · simp; omega)

/-! ## End of stream and the disabled reader -/

/-- C2 (evaluation at the failing input): with the default limit 2048 the
input "a\r\nb" yields "a", then "b", and then "b" again on every further
call; the value 0 is never returned. -/
theorem crlf_then_unterminated_repeats :
    outputs 4 (LineReader.new [97, 13, 10, 98] 2048)
      = [(1, [97]), (1, [98]), (1, [98]), (1, [98])] := by
  decide

/-- C5 as stated fails: with limit 1 and input "ab" the first call returns 2
and leaves the stream at its end; the second call obtains no byte from the
stream and returns 1 with the retained byte "b". -/
theorem cut_then_end_returns_line :
    (readLine (LineReader.new [97, 98] 1)).1 = 2 ∧
      (afterCalls 1 (LineReader.new [97, 98] 1)).src = [] ∧
      (readLine (afterCalls 1 (LineReader.new [97, 98] 1))).1 = 1 ∧
      getLine (readLine (afterCalls 1 (LineReader.new [97, 98] 1))).2 = [98] := by
  decide

/-- C5 (amended): for every `maxBytes >= 1` and every reader state whose
retained byte is 0, CR or LF, a `readLine` call on a stream that is already
at its end returns 0, with an empty line buffer and the retained byte kept. -/
theorem readLine_at_end (rd : LineReader) (hm : 1 ≤ rd.maxBytes) (hsrc : rd.src = [])
    (hr : rd.recent = 0 ∨ rd.recent = 10 ∨ rd.recent = 13) :
    (readLine rd).1 = 0 ∧ getLine (readLine rd).2 = [] ∧
      (readLine rd).2.recent = rd.recent ∧ (readLine rd).2.src = [] := by
  have hs : seed rd.recent = [] := by
    rcases hr with h | h | h <;> simp [seed, isPlain, h]
  rw [readLine_eq rd hm, hsrc, hs]
  simp [readLoop, checkExtracted, getLine]

/-- Witness for C5: the state reached from a fresh reader over "a\n" by
one call. -/
theorem readLine_at_end_witness :
    (readLine (afterCalls 1 (LineReader.new [97, 10] 5))).1 = 0 ∧
      getLine (readLine (afterCalls 1 (LineReader.new [97, 10] 5))).2 = [] ∧
      (readLine (afterCalls 1 (LineReader.new [97, 10] 5))).2.recent
        = (afterCalls 1 (LineReader.new [97, 10] 5)).recent ∧
      (readLine (afterCalls 1 (LineReader.new [97, 10] 5))).2.src = [] :=
  readLine_at_end (afterCalls 1 (LineReader.new [97, 10] 5)) (by decide) (by decide)
    (by decide)

/-- C6: a reader constructed with `maxBytes < 1` returns 0 on every call,
whatever the input and the number of calls; the stream, the retained byte
and the (empty) line buffer stay as constructed. -/
theorem readLine_disabled (src : List Nat) (m : Int) (n : Nat) (hm : m < 1) :
    outputs n (LineReader.new src m) = List.replicate n (0, []) ∧
      afterCalls n (LineReader.new src m) = LineReader.new src m ∧
      (afterCalls n (LineReader.new src m)).src = src ∧
      (afterCalls n (LineReader.new src m)).recent = 0 ∧
      getLine (afterCalls n (LineReader.new src m)) = [] := by
  have h1 : readLine (LineReader.new src m) = (0, LineReader.new src m) := by
    unfold readLine
    rw [if_pos (by simpa [LineReader.new] using hm)]
  have h2 : ∀ k, afterCalls k (LineReader.new src m) = LineReader.new src m := by
    intro k
    induction k with
    | zero => rfl
    | succ k ih => rw [afterCalls, h1]; exact ih
  have h3 : ∀ k, outputs k (LineReader.new src m) = List.replicate k (0, []) := by
    intro k
    induction k with
    | zero => rfl
    | succ k ih => rw [outputs, h1, List.replicate_succ, ih]; rfl
  rw [h2 n]
  exact ⟨h3 n, rfl, rfl, rfl, rfl⟩

/-- Witness for C6: limit 0, input "a\nb", three calls. -/
theorem readLine_disabled_witness :
    outputs 3 (LineReader.new [97, 10, 98] 0) = List.replicate 3 (0, []) ∧
      afterCalls 3 (LineReader.new [97, 10, 98] 0) = LineReader.new [97, 10, 98] 0 ∧
      (afterCalls 3 (LineReader.new [97, 10, 98] 0)).src = [97, 10, 98] ∧
      (afterCalls 3 (LineReader.new [97, 10, 98] 0)).recent = 0 ∧
      getLine (afterCalls 3 (LineReader.new [97, 10, 98] 0)) = [] :=
  readLine_disabled [97, 10, 98] 0 3 (by decide)

/-! ## Independence of the line-ending style -/

theorem allNoCRLF_tail {l : List Nat} {ls : List (List Nat)} (h : AllNoCRLF (l :: ls)) :
    AllNoCRLF ls :=
  fun x hx => h x (List.mem_cons_of_mem l hx)

theorem allNoCRLF_cons_tail {c : Nat} {l : List Nat} {ls : List (List Nat)}
    (h : AllNoCRLF ((c :: l) :: ls)) : AllNoCRLF (l :: ls) := by
  intro x hx
  rcases List.mem_cons.mp hx with hx | hx
  · subst hx
    exact noCRLF_tail (h (c :: x) (List.mem_cons_self _ _))
  · exact h x (List.mem_cons_of_mem _ hx)

theorem terminated_cons_cons (term : List Nat) (c : Nat) (l : List Nat) (ls : List (List Nat)) :
    terminated term ((c :: l) :: ls) = c :: terminated term (l :: ls) := by
  simp [terminated]

theorem seed_cr : seed 13 = [] := by decide

theorem seed_lf : seed 10 = [] := by decide

theorem readLoop_cr (m : Int) (rest : List Nat) (xc bc : Int) (r : Nat) (ln : List Nat) :
    readLoop m (13 :: rest) xc bc r ln
      = { ret := checkExtracted (xc + 1), src := rest, recent := 13, line := ln } := by
  rw [readLoop, if_pos rfl]

theorem readLoop_lf (m : Int) (rest : List Nat) (xc bc : Int) (r : Nat) (ln : List Nat)
    (hr : r ≠ 13) :
    readLoop m (10 :: rest) xc bc r ln
      = { ret := checkExtracted (xc + 1), src := rest, recent := 10, line := ln } :=
  readLoop_terminator m 10 rest xc bc r ln (Or.inl rfl) hr

theorem readLoop_lf_absorbed (m : Int) (rest : List Nat) (xc bc : Int) (ln : List Nat) :
    readLoop m (10 :: rest) xc bc 13 ln = readLoop m rest xc bc 10 ln := by
  rw [readLoop, if_neg (by decide), if_pos rfl, if_neg (by simp)]

theorem readLoop_plain_cons (m : Int) (c : Nat) (rest : List Nat) (xc bc : Int) (r : Nat)
    (ln : List Nat) (hc : c ≠ 13 ∧ c ≠ 10) :
    readLoop m (c :: rest) xc bc r ln
      = if bc + 1 > m then { ret := 2, src := rest, recent := c, line := ln }
        else readLoop m rest (xc + 1) (bc + 1) c (ln ++ [c]) := by
  rw [readLoop, if_neg hc.1, if_neg hc.2]

/-- The loop run on LF-terminated lines and on the same lines CR-terminated
gives the same value and line and keeps the two streams in step. -/
theorem readLoop_lf_cr (m : Int) (ls : List (List Nat)) (hls : AllNoCRLF ls) :
    ∀ (xc bc : Int) (ra rb : Nat) (ln : List Nat), ra ≠ 13 → seed ra = seed rb →
      (readLoop m (terminated [10] ls) xc bc ra ln).ret
          = (readLoop m (terminated [13] ls) xc bc rb ln).ret ∧
        (readLoop m (terminated [10] ls) xc bc ra ln).line
          = (readLoop m (terminated [13] ls) xc bc rb ln).line ∧
        SimCR (readLoop m (terminated [10] ls) xc bc ra ln).src
          (readLoop m (terminated [10] ls) xc bc ra ln).recent
          (readLoop m (terminated [13] ls) xc bc rb ln).src
          (readLoop m (terminated [13] ls) xc bc rb ln).recent := by
  induction ls with
  | nil =>
    intro xc bc ra rb ln hra hseed
    exact ⟨rfl, rfl, hra, hseed, [], fun _ h => by simp at h, rfl, rfl⟩
  | cons l ls ihls =>
    induction l with
    | nil =>
      intro xc bc ra rb ln hra hseed
      have ea : terminated [10] ([] :: ls) = 10 :: terminated [10] ls := by simp [terminated]
      have eb : terminated [13] ([] :: ls) = 13 :: terminated [13] ls := by simp [terminated]
      rw [ea, eb, readLoop_lf m _ xc bc ra ln hra, readLoop_cr m _ xc bc rb ln]
      exact ⟨rfl, rfl, (by decide : (10 : Nat) ≠ 13), seed_lf.trans seed_cr.symm, ls, (allNoCRLF_tail hls),
        rfl, rfl⟩
    | cons c l ihl =>
      intro xc bc ra rb ln hra hseed
      have hc : c ≠ 13 ∧ c ≠ 10 := noCRLF_head (hls (c :: l) (List.mem_cons_self _ _))
      rw [terminated_cons_cons, terminated_cons_cons, readLoop_plain_cons m c _ xc bc ra ln hc,
        readLoop_plain_cons m c _ xc bc rb ln hc]
      by_cases hov : bc + 1 > m
      · rw [if_pos hov, if_pos hov]
        exact ⟨rfl, rfl, hc.1, rfl, l :: ls, (allNoCRLF_cons_tail hls), rfl, rfl⟩
      · rw [if_neg hov, if_neg hov]
        exact ihl (allNoCRLF_cons_tail hls) (xc + 1) (bc + 1) c c (ln ++ [c]) hc.1 rfl

/-- The loop run on LF-terminated lines and on the same lines terminated by
CR+LF gives the same value and line and keeps the two streams in step. -/
theorem readLoop_lf_crlf (m : Int) (ls : List (List Nat)) (hls : AllNoCRLF ls) :
    ∀ (xc bc : Int) (ra rb : Nat) (ln : List Nat), ra ≠ 13 → rb ≠ 13 → seed ra = seed rb →
      (readLoop m (terminated [10] ls) xc bc ra ln).ret
          = (readLoop m (terminated [13, 10] ls) xc bc rb ln).ret ∧
        (readLoop m (terminated [10] ls) xc bc ra ln).line
          = (readLoop m (terminated [13, 10] ls) xc bc rb ln).line ∧
        SimCRLF (readLoop m (terminated [10] ls) xc bc ra ln).src
          (readLoop m (terminated [10] ls) xc bc ra ln).recent
          (readLoop m (terminated [13, 10] ls) xc bc rb ln).src
          (readLoop m (terminated [13, 10] ls) xc bc rb ln).recent := by
  induction ls with
  | nil =>
    intro xc bc ra rb ln hra hrb hseed
    exact ⟨rfl, rfl, hra, [], fun _ h => by simp at h, rfl, Or.inl ⟨rfl, hrb, hseed⟩⟩
  | cons l ls ihls =>
    induction l with
    | nil =>
      intro xc bc ra rb ln hra hrb hseed
      have ea : terminated [10] ([] :: ls) = 10 :: terminated [10] ls := by simp [terminated]
      have eb : terminated [13, 10] ([] :: ls) = 13 :: 10 :: terminated [13, 10] ls := by
        simp [terminated]
      rw [ea, eb, readLoop_lf m _ xc bc ra ln hra, readLoop_cr m _ xc bc rb ln]
      exact ⟨rfl, rfl, (by decide : (10 : Nat) ≠ 13), ls, (allNoCRLF_tail hls), rfl,
        Or.inr ⟨rfl, rfl, seed_lf⟩⟩
    | cons c l ihl =>
      intro xc bc ra rb ln hra hrb hseed
      have hc : c ≠ 13 ∧ c ≠ 10 := noCRLF_head (hls (c :: l) (List.mem_cons_self _ _))
      rw [terminated_cons_cons, terminated_cons_cons, readLoop_plain_cons m c _ xc bc ra ln hc,
        readLoop_plain_cons m c _ xc bc rb ln hc]
      by_cases hov : bc + 1 > m
      · rw [if_pos hov, if_pos hov]
        exact ⟨rfl, rfl, hc.1, l :: ls, (allNoCRLF_cons_tail hls), rfl, Or.inl ⟨rfl, hc.1, rfl⟩⟩
      · rw [if_neg hov, if_neg hov]
        exact ihl (allNoCRLF_cons_tail hls) (xc + 1) (bc + 1) c c (ln ++ [c]) hc.1 hc.1 rfl

/-- One call keeps an LF-fed and a CR-fed reader in step. -/
theorem readLine_lf_cr (a b : LineReader) (hm : 1 ≤ a.maxBytes) (hab : a.maxBytes = b.maxBytes)
    (h : SimCR a.src a.recent b.src b.recent) :
    (readLine a).1 = (readLine b).1 ∧ getLine (readLine a).2 = getLine (readLine b).2 ∧
      (readLine a).2.maxBytes = (readLine b).2.maxBytes ∧
      (readLine a).2.maxBytes = a.maxBytes ∧
      SimCR (readLine a).2.src (readLine a).2.recent (readLine b).2.src (readLine b).2.recent := by
  obtain ⟨hra, hseed, ls, hls, hsa, hsb⟩ := h
  rw [readLine_eq a hm, readLine_eq b (hab ▸ hm), hsa, hsb, ← hab, ← hseed]
  have := readLoop_lf_cr a.maxBytes ls hls (seed a.recent).length (seed a.recent).length
    a.recent b.recent (seed a.recent) hra hseed
  exact ⟨this.1, this.2.1, rfl, rfl, this.2.2⟩

/-- One call keeps an LF-fed and a CR+LF-fed reader in step. -/
theorem readLine_lf_crlf (a b : LineReader) (hm : 1 ≤ a.maxBytes)
    (hab : a.maxBytes = b.maxBytes) (h : SimCRLF a.src a.recent b.src b.recent) :
    (readLine a).1 = (readLine b).1 ∧ getLine (readLine a).2 = getLine (readLine b).2 ∧
      (readLine a).2.maxBytes = (readLine b).2.maxBytes ∧
      (readLine a).2.maxBytes = a.maxBytes ∧
      SimCRLF (readLine a).2.src (readLine a).2.recent (readLine b).2.src
        (readLine b).2.recent := by
  obtain ⟨hra, ls, hls, hsa, hcase⟩ := h
  rcases hcase with ⟨hsb, hrb, hseed⟩ | ⟨hsb, hrb, hseed⟩
  · rw [readLine_eq a hm, readLine_eq b (hab ▸ hm), hsa, hsb, ← hab, ← hseed]
    have := readLoop_lf_crlf a.maxBytes ls hls (seed a.recent).length (seed a.recent).length
      a.recent b.recent (seed a.recent) hra hrb hseed
    exact ⟨this.1, this.2.1, rfl, rfl, this.2.2⟩
  · rw [readLine_eq a hm, readLine_eq b (hab ▸ hm), hsa, hsb, ← hab, hrb, hseed, seed_cr]
    simp only [List.length_nil, Nat.cast_zero]
    rw [readLoop_lf_absorbed]
    have := readLoop_lf_crlf a.maxBytes ls hls 0 0 a.recent 10 [] hra (by decide)
      (by rw [hseed, seed_lf])
    exact ⟨this.1, this.2.1, trivial, trivial, this.2.2⟩

theorem outputs_lf_cr (n : Nat) :
    ∀ (a b : LineReader), 1 ≤ a.maxBytes → a.maxBytes = b.maxBytes →
      SimCR a.src a.recent b.src b.recent → outputs n a = outputs n b := by
  induction n with
  | zero => intros; rfl
  | succ n ih =>
    intro a b hm hab h
    obtain ⟨h1, h2, h3, h4, h5⟩ := readLine_lf_cr a b hm hab h
    rw [outputs, outputs, h1, h2, ih (readLine a).2 (readLine b).2 (h4 ▸ hm) h3 h5]

theorem outputs_lf_crlf (n : Nat) :
    ∀ (a b : LineReader), 1 ≤ a.maxBytes → a.maxBytes = b.maxBytes →
      SimCRLF a.src a.recent b.src b.recent → outputs n a = outputs n b := by
  induction n with
  | zero => intros; rfl
  | succ n ih =>
    intro a b hm hab h
    obtain ⟨h1, h2, h3, h4, h5⟩ := readLine_lf_crlf a b hm hab h
    rw [outputs, outputs, h1, h2, ih (readLine a).2 (readLine b).2 (h4 ▸ hm) h3 h5]

theorem terminated_eq_nil_iff (ls : List (List Nat)) : terminated [10] ls = [] ↔ ls = [] := by
  cases ls with
  | nil => simp [terminated]
  | cons l ls => simp [terminated]

/-- On LF-terminated lines the loop never ends with value 0 while a line is
left, and it shortens the stream. -/
theorem readLoop_lf_progress (m : Int) (l : List Nat) (ls : List (List Nat))
    (hls : AllNoCRLF (l :: ls)) :
    ∀ (xc bc : Int) (ra : Nat) (ln : List Nat), 0 ≤ xc → ra ≠ 13 →
      (readLoop m (terminated [10] (l :: ls)) xc bc ra ln).ret ≠ 0 ∧
        (readLoop m (terminated [10] (l :: ls)) xc bc ra ln).recent ≠ 13 ∧
        ∃ ls2, AllNoCRLF ls2 ∧
          (readLoop m (terminated [10] (l :: ls)) xc bc ra ln).src = terminated [10] ls2 ∧
          (terminated [10] ls2).length < (terminated [10] (l :: ls)).length ∧
          (ls2 = [] → seed (readLoop m (terminated [10] (l :: ls)) xc bc ra ln).recent = []) := by
  induction l with
  | nil =>
    intro xc bc ra ln hxc hra
    have ea : terminated [10] ([] :: ls) = 10 :: terminated [10] ls := by simp [terminated]
    rw [ea, readLoop_lf m _ xc bc ra ln hra]
    refine ⟨?_, (by decide : (10 : Nat) ≠ 13), ls, (allNoCRLF_tail hls), rfl, by simp, fun _ => seed_lf⟩
    show checkExtracted (xc + 1) ≠ 0
    rw [checkExtracted_pos (by omega)]
    decide
  | cons c l ihl =>
    intro xc bc ra ln hxc hra
    have hc : c ≠ 13 ∧ c ≠ 10 := noCRLF_head (hls (c :: l) (List.mem_cons_self _ _))
    rw [terminated_cons_cons, readLoop_plain_cons m c _ xc bc ra ln hc]
    by_cases hov : bc + 1 > m
    · rw [if_pos hov]
      exact ⟨(by decide : (2 : Int) ≠ 0), hc.1, l :: ls, (allNoCRLF_cons_tail hls), rfl, by simp,
        fun h => by simp at h⟩
    · rw [if_neg hov]
      obtain ⟨h1, h2, ls2, h3, h4, h5, h6⟩ :=
        ihl (allNoCRLF_cons_tail hls) (xc + 1) (bc + 1) c (ln ++ [c]) (by omega) hc.1
      exact ⟨h1, h2, ls2, h3, h4, by simp only [List.length_cons]; omega, h6⟩

/-- A reader fed with LF-terminated lines returns 0 after finitely many
calls, with an empty line buffer. -/
theorem outputs_lf_reaches_nothing (N : Nat) :
    ∀ (rd : LineReader) (ls : List (List Nat)), (terminated [10] ls).length ≤ N →
      1 ≤ rd.maxBytes → rd.src = terminated [10] ls → AllNoCRLF ls → rd.recent ≠ 13 →
      (ls = [] → seed rd.recent = []) →
      ∃ n pre, outputs (n + 1) rd = pre ++ [(0, [])] ∧ ∀ p ∈ pre, p.1 ≠ 0 := by
  induction N with
  | zero =>
    intro rd ls hlen hm hsrc hls hr hs
    have hnil : ls = [] := (terminated_eq_nil_iff ls).mp (List.length_eq_zero.mp (by omega))
    subst hnil
    refine ⟨0, [], ?_, fun p hp => by simp at hp⟩
    have h := readLine_eq rd hm
    rw [hsrc, hs rfl] at h
    simp [outputs, h, terminated, readLoop, checkExtracted, getLine]
  | succ N ih =>
    intro rd ls hlen hm hsrc hls hr hs
    cases ls with
    | nil =>
      refine ⟨0, [], ?_, fun p hp => by simp at hp⟩
      have h := readLine_eq rd hm
      rw [hsrc, hs rfl] at h
      simp [outputs, h, terminated, readLoop, checkExtracted, getLine]
    | cons l ls =>
      have h := readLine_eq rd hm
      rw [hsrc] at h
      obtain ⟨h1, h2, ls2, h3, h4, h5, h6⟩ := readLoop_lf_progress rd.maxBytes l ls hls
        (seed rd.recent).length (seed rd.recent).length rd.recent (seed rd.recent)
        (by positivity) hr
      obtain ⟨n, pre, hn, hpre⟩ := ih (readLine rd).2 ls2 (by omega) (by rw [h]; exact hm)
        (by rw [h]; exact h4) h3 (by rw [h]; exact h2) (by rw [h]; exact h6)
      refine ⟨n + 1, ((readLine rd).1, getLine (readLine rd).2) :: pre, ?_, ?_⟩
      · rw [outputs, hn, List.cons_append]
      · intro p hp
        rcases List.mem_cons.mp hp with hp | hp
        · subst hp
          rw [h]
          exact h1
        · exact hpre p hp

/-- C1: for `maxBytes >= 1` and lines free of CR and LF, fresh readers over
the lines terminated by LF, by CR and by CR+LF give the same pairs (value of
`readLine`, `getLine()`) call after call; the value 0 is reached after
finitely many calls, so the pairs agree up to and including the first 0. -/
theorem line_endings_agree (m : Int) (lines : List (List Nat)) (hm : 1 ≤ m)
    (hl : ∀ l ∈ lines, NoCRLF l) :
    (∀ n, outputs n (LineReader.new (terminated [10] lines) m)
          = outputs n (LineReader.new (terminated [13] lines) m) ∧
        outputs n (LineReader.new (terminated [10] lines) m)
          = outputs n (LineReader.new (terminated [13, 10] lines) m)) ∧
      ∃ n pre, outputs (n + 1) (LineReader.new (terminated [10] lines) m) = pre ++ [(0, [])] ∧
        ∀ p ∈ pre, p.1 ≠ 0 := by
  have h0 : seed 0 = [] := by decide
  have h13 : (0 : Nat) ≠ 13 := by decide
  refine ⟨fun n => ⟨?_, ?_⟩, ?_⟩
  · exact outputs_lf_cr n _ _ hm rfl ⟨h13, rfl, lines, hl, rfl, rfl⟩
  · exact outputs_lf_crlf n _ _ hm rfl ⟨h13, lines, hl, rfl, Or.inl ⟨rfl, h13, rfl⟩⟩
  · exact outputs_lf_reaches_nothing _ _ lines le_rfl hm rfl hl h13 (fun _ => h0)

/-- Witness for C1: the lines "ab", "" and "c" with limit 1. -/
theorem line_endings_agree_witness :
    (∀ n, outputs n (LineReader.new (terminated [10] [[97, 98], [], [99]]) 1)
          = outputs n (LineReader.new (terminated [13] [[97, 98], [], [99]]) 1) ∧
        outputs n (LineReader.new (terminated [10] [[97, 98], [], [99]]) 1)
          = outputs n (LineReader.new (terminated [13, 10] [[97, 98], [], [99]]) 1)) ∧
      ∃ n pre, outputs (n + 1) (LineReader.new (terminated [10] [[97, 98], [], [99]]) 1)
          = pre ++ [(0, [])] ∧ ∀ p ∈ pre, p.1 ≠ 0 :=
  line_endings_agree 1 [[97, 98], [], [99]] (by decide) (by decide)

/-! ## The text helpers -/

theorem getIndentLoop_eq (rest indent : List Nat) :
    getIndentLoop rest indent = indent ++ rest.takeWhile isHorizontal := by
  induction rest generalizing indent with
  | nil => simp [getIndentLoop]
  | cons c rest ih =>
    by_cases h : isHorizontal c = true
    · rw [getIndentLoop, if_pos h, ih, List.takeWhile_cons_of_pos h]
      simp
    · rw [getIndentLoop, if_neg h, List.takeWhile_cons_of_neg h]
      simp

theorem isHorizontal_iff (c : Nat) : isHorizontal c = true ↔ c = 9 ∨ c = 32 := by
  simp [isHorizontal]

/-- C8: `getIndent(line)` is the maximal prefix of `line` made of tab (9)
and space (32) bytes: `line` is `getIndent(line)` followed by a rest that is
empty or starts with another byte; `getIndent("\t  x")` is `"\t  "`. -/
theorem getIndent_maximal (line : List Nat) :
    (∃ rest, line = getIndent line ++ rest ∧
        (∀ b ∈ getIndent line, b = 9 ∨ b = 32) ∧
        (rest = [] ∨ ∃ c tl, rest = c :: tl ∧ c ≠ 9 ∧ c ≠ 32)) ∧
      getIndent [9, 32, 32, 120] = [9, 32, 32] := by
  have hg : getIndent line = line.takeWhile isHorizontal := by
    simp [getIndent, getIndentLoop_eq]
  refine ⟨⟨line.dropWhile isHorizontal, ?_, ?_, ?_⟩, by decide⟩
  · rw [hg, List.takeWhile_append_dropWhile]
  · intro b hb
    rw [hg] at hb
    exact (isHorizontal_iff b).mp (List.mem_takeWhile_imp hb)
  · cases hd : line.dropWhile isHorizontal with
    | nil => exact Or.inl rfl
    | cons c tl =>
      refine Or.inr ⟨c, tl, rfl, ?_⟩
      have hc : ¬ isHorizontal c = true := by
        have := List.head_dropWhile_not isHorizontal line (by rw [hd]; simp)
        simpa [hd] using this
      rw [isHorizontal_iff] at hc
      exact ⟨fun h => hc (Or.inl h), fun h => hc (Or.inr h)⟩

/-- The state of the loop of `trim` after the bytes `p` have been read. -/
theorem trimLoop_inv (rest : List Nat) :
    ∀ (p trimmed buffer : List Nat), trimmed ++ buffer = p.dropWhile isWhitespace →
      (∀ x ∈ buffer, isWhitespace x = true) →
      trimmed.rdropWhile isWhitespace = trimmed → (trimmed = [] → buffer = []) →
      trimLoop rest trimmed buffer = stripEnds (p ++ rest) := by
  induction rest with
  | nil =>
    intro p t b hp hb ht _
    rw [trimLoop, List.append_nil, stripEnds, ← hp]
    have : List.rdropWhile isWhitespace (t ++ b) = List.rdropWhile isWhitespace t := by
      unfold List.rdropWhile
      rw [List.reverse_append, List.dropWhile_append_of_pos (by simpa using hb)]
    rw [this, ht]
  | cons c rest ih =>
    intro p t b hp hb ht htb
    have hsplit : p ++ c :: rest = (p ++ [c]) ++ rest := by simp
    have hdrop : (p ++ [c]).dropWhile isWhitespace
        = if (p.dropWhile isWhitespace).isEmpty then [c].dropWhile isWhitespace
          else p.dropWhile isWhitespace ++ [c] := List.dropWhile_append
    rw [hsplit]
    by_cases hc : isWhitespace c = true
    · rw [trimLoop, if_pos hc]
      by_cases hte : t = []
      · have hbe := htb hte
        subst hte
        subst hbe
        simp only [List.isEmpty_nil, Bool.not_true, Bool.false_eq_true, if_false]
        apply ih (p ++ [c]) [] [] _ hb ht htb
        rw [hdrop, ← hp]
        simp [hc]
      · have hne : (!t.isEmpty) = true := by
          cases t with
          | nil => exact absurd rfl hte
          | cons _ _ => rfl
        rw [if_pos hne]
        apply ih (p ++ [c]) t (b ++ [c]) _ _ ht (fun h => absurd h hte)
        · rw [hdrop, ← hp]
          cases t with
          | nil => exact absurd rfl hte
          | cons _ _ => simp
        · intro x hx
          rcases List.mem_append.mp hx with hx | hx
          · exact hb x hx
          · simp only [List.mem_singleton] at hx
            rw [hx]
            exact hc
    · have hnew : (t ++ b) ++ [c] = (p ++ [c]).dropWhile isWhitespace := by
        rw [hdrop, ← hp]
        cases htb2 : t ++ b with
        | nil => simp [hc]
        | cons _ _ => simp
      have hkeep : ((t ++ b) ++ [c]).rdropWhile isWhitespace = (t ++ b) ++ [c] :=
        List.rdropWhile_concat_neg _ _ _ hc
      rw [trimLoop, if_neg hc]
      by_cases hbe : b = []
      · subst hbe
        simp only [List.isEmpty_nil, Bool.not_true, Bool.false_eq_true, if_false]
        apply ih (p ++ [c]) (t ++ [c]) [] _ (fun x hx => by simp at hx) _ (fun _ => rfl)
        · simpa using hnew
        · simpa using hkeep
      · have hne : (!b.isEmpty) = true := by
          cases b with
          | nil => exact absurd rfl hbe
          | cons _ _ => rfl
        rw [if_pos hne]
        apply ih (p ++ [c]) ((t ++ b) ++ [c]) [] _ (fun x hx => by simp at hx) hkeep
          (fun _ => rfl)
        simpa using hnew

theorem isWhitespace_iff (c : Nat) :
    isWhitespace c = true ↔ c = 9 ∨ c = 10 ∨ c = 13 ∨ c = 32 := by
  simp [isWhitespace, or_assoc]

/-- C7: `trim(line)` is `line` without its longest prefix and its longest
suffix of whitespace bytes (9, 10, 13, 32), the bytes in between kept as they
are; it is empty exactly when every byte of `line` is such a byte; and
`trim(" \t hi there \t")` is `"hi there"`. -/
theorem trim_strips_ends (line : List Nat) :
    trim line = stripEnds line ∧
      (trim line = [] ↔ ∀ b ∈ line, b = 9 ∨ b = 10 ∨ b = 13 ∨ b = 32) ∧
      trim [32, 9, 32, 104, 105, 32, 116, 104, 101, 114, 101, 32, 9]
        = [104, 105, 32, 116, 104, 101, 114, 101] := by
  have h : trim line = stripEnds line := by
    have := trimLoop_inv line [] [] [] rfl (fun x hx => by simp at hx) rfl (fun _ => rfl)
    simpa [trim] using this
  refine ⟨h, ?_, by decide⟩
  rw [h, stripEnds, List.rdropWhile_eq_nil_iff]
  constructor
  · intro hall b hb
    rw [← isWhitespace_iff]
    by_cases hw : isWhitespace b = true
    · exact hw
    · exfalso
      have hmem : b ∈ line.dropWhile isWhitespace := by
        have hsplit := List.takeWhile_append_dropWhile isWhitespace line
        rw [← hsplit] at hb
        rcases List.mem_append.mp hb with hb | hb
        · exact absurd (List.mem_takeWhile_imp hb) hw
        · exact hb
      exact hw (hall b hmem)
  · intro hall x hx
    rw [isWhitespace_iff]
    exact hall x ((List.dropWhile_sublist _).subset hx)

/-! ## The entry collector -/

theorem expectedEntries_nil : expectedEntries [] = [] := rfl

theorem expectedEntries_cons (raw : List Nat) (lines : List (List Nat)) :
    expectedEntries (raw :: lines) = expectedEntries [raw] ++ expectedEntries lines := by
  simp only [expectedEntries, List.map_cons, List.map_nil, List.filter_cons, List.filter_nil]
  split <;> simp

theorem expectedEntries_append (l1 l2 : List (List Nat)) :
    expectedEntries (l1 ++ l2) = expectedEntries l1 ++ expectedEntries l2 := by
  simp [expectedEntries]

theorem isEmpty_ne_true_of_ne {l : List Nat} (h : l ≠ []) : ¬ l.isEmpty = true := by
  cases l with
  | nil => exact absurd rfl h
  | cons _ _ => simp

theorem ite_none_some {c : Prop} [Decidable c] {a b : Collector}
    (h : (if c then none else some a) = some b) : ¬ c ∧ a = b := by
  by_cases hc : c
  · rw [if_pos hc] at h
    exact absurd h (by simp)
  · rw [if_neg hc] at h
    exact ⟨hc, Option.some.inj h⟩

theorem emptyMarker_ne_nil : emptyMarker ≠ [] := by decide

theorem emptyMarker_ne_rowEndMarker : emptyMarker ≠ rowEndMarker := by decide

theorem rowEndMarker_ne_nil : rowEndMarker ≠ [] := by decide

theorem expectedEntries_single (raw : List Nat) :
    expectedEntries [raw] =
      if trim raw = [] then []
      else if trim raw = rowEndMarker then []
      else if trim raw = emptyMarker then [[]]
      else [trim raw] := by
  simp only [expectedEntries, List.map_cons, List.map_nil, List.filter_cons, List.filter_nil]
  by_cases he : trim raw = []
  · simp [he]
  · by_cases hd : trim raw = rowEndMarker
    · simp [he, hd]
    · by_cases hm : trim raw = emptyMarker
      · rw [if_neg he, if_neg hd, if_pos hm]
        simp [hm, emptyMarker_ne_nil, emptyMarker_ne_rowEndMarker]
      · simp [he, hd, hm]

/-- What one pass through the loop body does to the three variables. -/
theorem collectLine_some (st st1 : Collector) (raw : List Nat)
    (h : collectLine st raw = some st1) :
    st1.entries = st.entries ++ expectedEntries [raw] ∧
      st1.ncols = (if trim raw = rowEndMarker ∧ st.ncols = 0 then st.entries.length
        else st.ncols) ∧
      st1.indent = (if st.entries.isEmpty then getIndent raw else st.indent) := by
  rw [expectedEntries_single]
  simp only [collectLine] at h
  by_cases he : trim raw = []
  · rw [if_pos (show (trim raw).isEmpty = true by simp [he])] at h
    simp only [Option.some.injEq] at h
    subst h
    simp [he, rowEndMarker_ne_nil.symm]
  · rw [if_neg (isEmpty_ne_true_of_ne he)] at h
    rw [if_neg he]
    by_cases hd : trim raw = rowEndMarker
    · rw [if_pos hd] at h ⊢
      by_cases hn : st.ncols = 0
      · rw [if_pos hn] at h
        obtain ⟨_, h⟩ := ite_none_some h
        subst h
        simp [hd, hn]
      · rw [if_neg hn] at h
        obtain ⟨_, h⟩ := ite_none_some h
        subst h
        simp [hn]
    · rw [if_neg hd] at h ⊢
      by_cases hm : trim raw = emptyMarker
      · rw [if_pos hm] at h ⊢
        obtain ⟨_, h⟩ := ite_none_some h
        subst h
        simp [hd]
      · rw [if_neg hm] at h ⊢
        obtain ⟨_, h⟩ := ite_none_some h
        subst h
        simp [hd]

/-- The loop body only fails when the entry it appends is the 10001st. -/
theorem collectLine_ok (st : Collector) (raw : List Nat)
    (hlen : (st.entries ++ expectedEntries [raw]).length ≤ 10000) :
    ∃ st1, collectLine st raw = some st1 := by
  rw [expectedEntries_single] at hlen
  simp only [collectLine]
  by_cases he : trim raw = []
  · rw [if_pos (show (trim raw).isEmpty = true by simp [he])]
    exact ⟨_, rfl⟩
  · rw [if_neg (isEmpty_ne_true_of_ne he)]
    rw [if_neg he] at hlen
    by_cases hd : trim raw = rowEndMarker
    · rw [if_pos hd] at hlen ⊢
      rw [List.append_nil] at hlen
      by_cases hn : st.ncols = 0
      · rw [if_pos hn, if_neg (by simpa using hlen)]
        exact ⟨_, rfl⟩
      · rw [if_neg hn, if_neg (by simpa using hlen)]
        exact ⟨_, rfl⟩
    · rw [if_neg hd] at hlen ⊢
      by_cases hm : trim raw = emptyMarker
      · rw [if_pos hm] at hlen ⊢
        rw [if_neg (by simpa using hlen)]
        exact ⟨_, rfl⟩
      · rw [if_neg hm] at hlen ⊢
        rw [if_neg (by simpa using hlen)]
        exact ⟨_, rfl⟩

theorem collectLines_append (l1 l2 : List (List Nat)) :
    ∀ st, collectLines st (l1 ++ l2) = (collectLines st l1).bind (fun s => collectLines s l2) := by
  induction l1 with
  | nil => intro st; rfl
  | cons raw l1 ih =>
    intro st
    rw [List.cons_append, collectLines, collectLines]
    cases collectLine st raw with
    | none => rfl
    | some st1 => exact ih st1

theorem collectLines_some_entries (lines : List (List Nat)) :
    ∀ st st2, collectLines st lines = some st2 →
      st2.entries = st.entries ++ expectedEntries lines := by
  induction lines with
  | nil =>
    intro st st2 h
    rw [collectLines, Option.some.injEq] at h
    subst h
    simp [expectedEntries_nil]
  | cons raw lines ih =>
    intro st st2 h
    rw [collectLines] at h
    cases h1 : collectLine st raw with
    | none => rw [h1] at h; exact absurd h (by simp)
    | some st1 =>
      rw [h1] at h
      rw [ih st1 st2 h, (collectLine_some st st1 raw h1).1, expectedEntries_cons raw lines,
        List.append_assoc]

theorem collectLines_ok (lines : List (List Nat)) :
    ∀ st, (st.entries ++ expectedEntries lines).length ≤ 10000 →
      ∃ st2, collectLines st lines = some st2 := by
  induction lines with
  | nil => intro st _; exact ⟨st, rfl⟩
  | cons raw lines ih =>
    intro st hlen
    rw [expectedEntries_cons, ← List.append_assoc] at hlen
    obtain ⟨st1, h1⟩ := collectLine_ok st raw (by
      rw [List.length_append] at hlen; omega)
    rw [collectLines, h1]
    exact ih st1 (by rw [(collectLine_some st st1 raw h1).1]; exact hlen)

/-- C9: when the lines the reader delivers stand for at most 10000 entries,
the loop ends with the entry sequence equal to the trimmed lines that are
neither empty nor "...", in input order and with "." replaced by the empty
string; after every initial part of the input the entries collected so far are
the ones of that part and they remain a prefix of the final sequence. -/
theorem collected_entries (lines : List (List Nat))
    (h : (expectedEntries lines).length ≤ 10000) :
    ∃ st, collectLines Collector.init lines = some st ∧
      st.entries = expectedEntries lines ∧
      ∀ pre post, lines = pre ++ post →
        ∃ st1, collectLines Collector.init pre = some st1 ∧
          st1.entries = expectedEntries pre ∧ st1.entries <+: st.entries := by
  obtain ⟨st, hst⟩ := collectLines_ok lines Collector.init (by simpa [Collector.init] using h)
  have hent : st.entries = expectedEntries lines := by
    simpa [Collector.init] using collectLines_some_entries lines Collector.init st hst
  refine ⟨st, hst, hent, ?_⟩
  intro pre post hsplit
  subst hsplit
  rw [expectedEntries_append, List.length_append] at h
  obtain ⟨st1, h1⟩ := collectLines_ok pre Collector.init (by
    simp only [Collector.init, List.nil_append]; omega)
  have hent1 : st1.entries = expectedEntries pre := by
    simpa [Collector.init] using collectLines_some_entries pre Collector.init st1 h1
  refine ⟨st1, h1, hent1, ?_⟩
  rw [hent, hent1, expectedEntries_append]
  exact List.prefix_append _ _

/-- Witness for C9: the lines " 1", "", ".", "...", "2 ", "...". -/
theorem collected_entries_witness :
    ∃ st, collectLines Collector.init [[32, 49], [], [46], [46, 46, 46], [50, 32], [46, 46, 46]]
          = some st ∧
      st.entries = expectedEntries [[32, 49], [], [46], [46, 46, 46], [50, 32], [46, 46, 46]] ∧
      ∀ pre post, [[32, 49], [], [46], [46, 46, 46], [50, 32], [46, 46, 46]] = pre ++ post →
        ∃ st1, collectLines Collector.init pre = some st1 ∧
          st1.entries = expectedEntries pre ∧ st1.entries <+: st.entries :=
  collected_entries [[32, 49], [], [46], [46, 46, 46], [50, 32], [46, 46, 46]] (by decide)

theorem collectLines_ncols_kept (lines : List (List Nat)) :
    ∀ st st2, collectLines st lines = some st2 → st.ncols ≠ 0 → st2.ncols = st.ncols := by
  induction lines with
  | nil =>
    intro st st2 h _
    rw [collectLines, Option.some.injEq] at h
    rw [h]
  | cons raw lines ih =>
    intro st st2 h hn
    rw [collectLines] at h
    cases h1 : collectLine st raw with
    | none => rw [h1] at h; exact absurd h (by simp)
    | some st1 =>
      rw [h1] at h
      have hc := (collectLine_some st st1 raw h1).2.1
      rw [if_neg (fun hh => hn hh.2)] at hc
      rw [ih st1 st2 h (by rw [hc]; exact hn), hc]

theorem collectLines_ncols_no_marker (lines : List (List Nat)) :
    ∀ st st2, collectLines st lines = some st2 → (∀ l ∈ lines, trim l ≠ rowEndMarker) →
      st2.ncols = st.ncols := by
  induction lines with
  | nil =>
    intro st st2 h _
    rw [collectLines, Option.some.injEq] at h
    rw [h]
  | cons raw lines ih =>
    intro st st2 h hno
    rw [collectLines] at h
    cases h1 : collectLine st raw with
    | none => rw [h1] at h; exact absurd h (by simp)
    | some st1 =>
      rw [h1] at h
      have hc := (collectLine_some st st1 raw h1).2.1
      rw [if_neg (fun hh => hno raw (List.mem_cons_self _ _) hh.1)] at hc
      rw [ih st1 st2 h (fun l hl => hno l (List.mem_cons_of_mem _ hl)), hc]

theorem collectLines_ncols_no_entry (lines : List (List Nat)) :
    ∀ st st2, collectLines st lines = some st2 → st.entries = [] → st.ncols = 0 →
      expectedEntries lines = [] → st2.ncols = 0 := by
  induction lines with
  | nil =>
    intro st st2 h _ hn _
    rw [collectLines, Option.some.injEq] at h
    rw [← h, hn]
  | cons raw lines ih =>
    intro st st2 h he hn hx
    rw [collectLines] at h
    rw [expectedEntries_cons, List.append_eq_nil] at hx
    cases h1 : collectLine st raw with
    | none => rw [h1] at h; exact absurd h (by simp)
    | some st1 =>
      rw [h1] at h
      have hc := collectLine_some st st1 raw h1
      refine ih st1 st2 h (by rw [hc.1, he, hx.1]; rfl) ?_ hx.2
      rw [hc.2.1]
      split
      · rw [he]; rfl
      · exact hn

/-- C10 as stated fails: a "..." line before any entry sets the column count
to 0, which is the value for "not set", and the later "..." line after the
entry "a" changes it to 1. -/
theorem later_marker_changes_ncols :
    collectLines Collector.init [[46, 46, 46]]
        = some { entries := [], ncols := 0, indent := [] } ∧
      collectLines Collector.init [[46, 46, 46], [97], [46, 46, 46]]
        = some { entries := [[97]], ncols := 1, indent := [] } := by
  decide

/-- C10 (amended): the first line trimming to "..." that has at least one
entry collected before it sets the column count to the number of entries
collected before it, and no later line changes the count; "..." lines with
no entry before them leave the count at 0, the value for "not set".  Here
`p1` are the lines before the first entry, `p2` the lines from the first
entry up to that "..." line `raw`, and `post` any lines after it. -/
theorem first_marker_sets_ncols (p1 p2 post : List (List Nat)) (raw : List Nat) (st : Collector)
    (h1 : expectedEntries p1 = []) (h2 : ∀ l ∈ p2, trim l ≠ rowEndMarker)
    (h3 : expectedEntries p2 ≠ []) (hraw : trim raw = rowEndMarker)
    (hrun : collectLines Collector.init (p1 ++ p2 ++ raw :: post) = some st) :
    st.ncols = (expectedEntries (p1 ++ p2)).length ∧ st.ncols ≠ 0 ∧
      ∃ sa, collectLines Collector.init p1 = some sa ∧ sa.ncols = 0 := by
  rw [List.append_assoc, collectLines_append] at hrun
  cases ha : collectLines Collector.init p1 with
  | none => rw [ha] at hrun; exact absurd hrun (by simp)
  | some sa =>
    rw [ha, Option.some_bind, collectLines_append] at hrun
    cases hb : collectLines sa p2 with
    | none => rw [hb] at hrun; exact absurd hrun (by simp)
    | some sb =>
      rw [hb, Option.some_bind, collectLines] at hrun
      cases hc : collectLine sb raw with
      | none => rw [hc] at hrun; exact absurd hrun (by simp)
      | some sc =>
        rw [hc] at hrun
        have ea : sa.entries = [] := by
          rw [collectLines_some_entries p1 _ sa ha, h1]; rfl
        have na : sa.ncols = 0 := collectLines_ncols_no_entry p1 _ sa ha rfl rfl h1
        have eb : sb.entries = expectedEntries p2 := by
          rw [collectLines_some_entries p2 sa sb hb, ea]; rfl
        have nb : sb.ncols = 0 := by
          rw [collectLines_ncols_no_marker p2 sa sb hb h2, na]
        have nc : sc.ncols = (expectedEntries p2).length := by
          rw [(collectLine_some sb sc raw hc).2.1, if_pos ⟨hraw, nb⟩, eb]
        have hpos : (expectedEntries p2).length ≠ 0 := fun h => h3 (List.length_eq_zero.mp h)
        have hfin : st.ncols = sc.ncols :=
          collectLines_ncols_kept post sc st hrun (by rw [nc]; exact hpos)
        rw [hfin, nc, expectedEntries_append, h1, List.nil_append]
        exact ⟨rfl, hpos, sa, rfl, na⟩

/-- Witness for C10: the lines "...", "a", "b", "...", "c", "...", "d". -/
theorem first_marker_sets_ncols_witness :
    ({ entries := [[97], [98], [99], [100]], ncols := 2, indent := [] } : Collector).ncols
        = (expectedEntries ([[46, 46, 46]] ++ [[97], [98]])).length ∧
      ({ entries := [[97], [98], [99], [100]], ncols := 2, indent := [] } : Collector).ncols
        ≠ 0 ∧
      ∃ sa, collectLines Collector.init [[46, 46, 46]] = some sa ∧ sa.ncols = 0 :=
  first_marker_sets_ncols [[46, 46, 46]] [[97], [98]] [[99], [46, 46, 46], [100]] [46, 46, 46]
    { entries := [[97], [98], [99], [100]], ncols := 2, indent := [] }
    (by decide) (by decide) (by decide) (by decide) (by decide)

/-! ## The line buffer -/

/-- The loop keeps the line free of CR and LF and no longer than the limit. -/
theorem readLoop_line_bound (m : Int) (src : List Nat) :
    ∀ (xc bc : Int) (r : Nat) (ln : List Nat), NoCRLF ln → (ln.length : Int) ≤ bc → bc ≤ m →
      NoCRLF (readLoop m src xc bc r ln).line ∧
        ((readLoop m src xc bc r ln).line.length : Int) ≤ m := by
  induction src with
  | nil =>
    intro xc bc r ln hln hlen hbc
    exact ⟨hln, by simp only [readLoop]; omega⟩
  | cons c rest ih =>
    intro xc bc r ln hln hlen hbc
    rw [readLoop]
    by_cases h13 : c = 13
    · rw [if_pos h13]
      exact ⟨hln, by show (ln.length : Int) ≤ m; omega⟩
    · rw [if_neg h13]
      by_cases h10 : c = 10
      · rw [if_pos h10]
        by_cases hr : r ≠ 13
        · rw [if_pos hr]
          exact ⟨hln, by show (ln.length : Int) ≤ m; omega⟩
        · rw [if_neg hr]
          exact ih xc bc c ln hln hlen hbc
      · rw [if_neg h10]
        by_cases hov : bc + 1 > m
        · rw [if_pos hov]
          exact ⟨hln, by show (ln.length : Int) ≤ m; omega⟩
        · rw [if_neg hov]
          refine ih (xc + 1) (bc + 1) c (ln ++ [c]) ?_ ?_ (by omega)
          · intro b hb
            rcases List.mem_append.mp hb with hb | hb
            · exact hln b hb
            · simp only [List.mem_singleton] at hb
              subst hb
              exact ⟨h13, h10⟩
          · rw [List.length_append]
            push_cast
            simp only [List.length_singleton, Nat.cast_one]
            omega

/-- One call keeps the line buffer free of CR and LF and within the limit. -/
theorem readLine_line_bound (rd : LineReader) (h1 : NoCRLF rd.line)
    (h2 : (rd.line.length : Int) ≤ max rd.maxBytes 0) :
    NoCRLF (getLine (readLine rd).2) ∧
      ((getLine (readLine rd).2).length : Int) ≤ max rd.maxBytes 0 ∧
      (readLine rd).2.maxBytes = rd.maxBytes := by
  by_cases hm : rd.maxBytes < 1
  · have : readLine rd = (0, rd) := by unfold readLine; rw [if_pos hm]
    rw [this]
    exact ⟨h1, h2, rfl⟩
  · have hm1 : 1 ≤ rd.maxBytes := by omega
    rw [readLine_eq rd hm1]
    have hsl := seed_length_le rd.recent
    have := readLoop_line_bound rd.maxBytes rd.src (seed rd.recent).length
      (seed rd.recent).length rd.recent (seed rd.recent) (seed_noCRLF rd.recent) le_rfl
      (by omega)
    refine ⟨this.1, ?_, rfl⟩
    have h3 := this.2
    simp only [getLine]
    omega

/-- C18: on a freshly constructed reader, whatever the input, the limit and
the number of calls, `getLine()` holds no CR (13) and no LF (10) byte and at
most `max(maxBytes, 0)` bytes after each call, re-seeded lines included. -/
theorem line_buffer_invariant (input : List Nat) (m : Int) (n : Nat) :
    NoCRLF (getLine (afterCalls n (LineReader.new input m))) ∧
      ((getLine (afterCalls n (LineReader.new input m))).length : Int) ≤ max m 0 := by
  have key : ∀ (k : Nat) (rd : LineReader), NoCRLF rd.line →
      (rd.line.length : Int) ≤ max rd.maxBytes 0 →
      NoCRLF (getLine (afterCalls k rd)) ∧
        ((getLine (afterCalls k rd)).length : Int) ≤ max rd.maxBytes 0 := by
    intro k
    induction k with
    | zero => intro rd h1 h2; exact ⟨h1, h2⟩
    | succ k ih =>
      intro rd h1 h2
      obtain ⟨a, b, c⟩ := readLine_line_bound rd h1 h2
      have := ih (readLine rd).2 a (by rw [c]; exact b)
      rw [c] at this
      exact this
  exact key n (LineReader.new input m) (fun b hb => by simp [LineReader.new] at hb)
    (by simp [LineReader.new])

/-! ## The shape of the matrix -/

theorem entries_isEmpty_ne_true {l : List (List Nat)} (h : 1 ≤ l.length) :
    ¬ l.isEmpty = true := by
  cases l with
  | nil => simp at h
  | cons _ _ => simp

theorem resolve_unset (st : Collector) (hn : st.ncols = 0) (h1 : 1 ≤ st.entries.length) :
    resolve st =
      if intSqrt st.entries.length * intSqrt st.entries.length = st.entries.length
      then .done (intSqrt st.entries.length, intSqrt st.entries.length)
      else .done (st.entries.length, 1) := by
  unfold resolve
  rw [if_neg (entries_isEmpty_ne_true h1), if_pos hn]

theorem resolve_set (st : Collector) (hc : st.ncols ≠ 0) (h1 : 1 ≤ st.entries.length) :
    resolve st =
      if st.entries.length / st.ncols * st.ncols ≠ st.entries.length
      then .failed .ambiguousShape
      else .done (st.entries.length / st.ncols, st.ncols) := by
  unfold resolve
  rw [if_neg (entries_isEmpty_ne_true h1), if_neg hc]

/-- C11: with no column count set and `N` entries, `1 <= N <= 10000` (the
range the limit on the entries allows), the shape is `R x R` when `N = R * R`
and `N x 1` when `N` is not a square. -/
theorem shape_without_marker (st : Collector) (hn : st.ncols = 0)
    (h1 : 1 ≤ st.entries.length) (_h2 : st.entries.length ≤ 10000) :
    (∀ R, R * R = st.entries.length → resolve st = .done (R, R)) ∧
      ((∀ R, R * R ≠ st.entries.length) → resolve st = .done (st.entries.length, 1)) := by
  rw [resolve_unset st hn h1]
  constructor
  · intro R hR
    have hs : intSqrt st.entries.length = R := by
      rw [← hR]; exact Nat.sqrt_eq R
    rw [hs, if_pos hR]
  · intro hR
    rw [if_neg (hR _)]

/-- Witness for C11: four entries give 2 x 2 and three entries give 3 x 1. -/
theorem shape_without_marker_witness :
    resolve { entries := [[49], [50], [51], [52]], ncols := 0, indent := [] } = .done (2, 2) ∧
      resolve { entries := [[49], [50], [51]], ncols := 0, indent := [] } = .done (3, 1) :=
  ⟨(shape_without_marker { entries := [[49], [50], [51], [52]], ncols := 0, indent := [] }
      rfl (by decide) (by decide)).1 2 rfl,
    (shape_without_marker { entries := [[49], [50], [51]], ncols := 0, indent := [] }
      rfl (by decide) (by decide)).2 (by
        intro R h
        have h3 : R * R = 3 := h
        have hlt : R < 2 := by nlinarith
        interval_cases R <;> omega)⟩

/-- C12: when a "..." line has set the column count to `C` (so `C` is not 0)
and `N >= 1` entries were collected, the shape is `N / C` rows by `C` columns
if `C` divides `N`, and the run fails with the message about the matrix size
exactly if `C` does not divide `N`. -/
theorem shape_with_marker (st : Collector) (hc : st.ncols ≠ 0) (h1 : 1 ≤ st.entries.length) :
    (st.ncols ∣ st.entries.length →
        resolve st = .done (st.entries.length / st.ncols, st.ncols)) ∧
      (resolve st = .failed .ambiguousShape ↔ ¬ st.ncols ∣ st.entries.length) := by
  rw [resolve_set st hc h1]
  have hdiv : st.entries.length / st.ncols * st.ncols = st.entries.length ↔
      st.ncols ∣ st.entries.length := by
    constructor
    · intro h
      exact ⟨st.entries.length / st.ncols, by rw [Nat.mul_comm]; exact h.symm⟩
    · intro h
      exact Nat.div_mul_cancel h
  constructor
  · intro h
    rw [if_neg (not_not.mpr (hdiv.mpr h))]
  · by_cases h : st.ncols ∣ st.entries.length
    · rw [if_neg (not_not.mpr (hdiv.mpr h))]
      simp [h]
    · rw [if_pos (fun hh => h (hdiv.mp hh))]
      simp [h]

/-- Witness for C12: a "..." line after two of four entries gives 2 x 2, a
"..." line after two of three entries makes the run fail. -/
theorem shape_with_marker_witness :
    (collectLines Collector.init [[49], [50], [46, 46, 46], [51], [52]]
        = some { entries := [[49], [50], [51], [52]], ncols := 2, indent := [] } ∧
      resolve { entries := [[49], [50], [51], [52]], ncols := 2, indent := [] }
        = .done (2, 2)) ∧
    (collectLines Collector.init [[49], [50], [46, 46, 46], [51]]
        = some { entries := [[49], [50], [51]], ncols := 2, indent := [] } ∧
      resolve { entries := [[49], [50], [51]], ncols := 2, indent := [] }
        = .failed .ambiguousShape ∧
      pmatrixMain 5 [49, 10, 50, 10, 46, 46, 46, 10, 51, 10]
        = some (.failed .ambiguousShape)) :=
  ⟨⟨by decide,
      (shape_with_marker { entries := [[49], [50], [51], [52]], ncols := 2, indent := [] }
        (by decide) (by decide)).1 (by decide)⟩,
    ⟨by decide,
      (shape_with_marker { entries := [[49], [50], [51]], ncols := 2, indent := [] }
        (by decide) (by decide)).2.mpr (by decide), by decide⟩⟩

/-- C20: when the checks after the reading loop pass, the shape handed to
`showMatrix` has `nrows >= 1`, `ncols >= 1` and `nrows * ncols` equal to the
number of entries, so every index `i * ncols + j` with `i < nrows` and
`j < ncols` is below the number of entries. -/
theorem shape_in_bounds (st : Collector) (nrows ncols : Nat)
    (h : resolve st = .done (nrows, ncols)) :
    1 ≤ nrows ∧ 1 ≤ ncols ∧ nrows * ncols = st.entries.length ∧
      ∀ i j, i < nrows → j < ncols → i * ncols + j < st.entries.length := by
  have hprod : 1 ≤ st.entries.length ∧ 1 ≤ ncols ∧ nrows * ncols = st.entries.length := by
    by_cases he : st.entries.isEmpty = true
    · unfold resolve at h
      rw [if_pos he] at h
      exact absurd h (by simp)
    · have h1 : 1 ≤ st.entries.length := by
        cases hl : st.entries with
        | nil => rw [hl] at he; simp at he
        | cons _ _ => simp
      refine ⟨h1, ?_⟩
      by_cases hn : st.ncols = 0
      · rw [resolve_unset st hn h1] at h
        split at h
        · rename_i hsq
          simp only [Outcome.done.injEq, Prod.mk.injEq] at h
          obtain ⟨ha, hb⟩ := h
          subst ha
          subst hb
          refine ⟨?_, hsq⟩
          by_contra hz
          have : intSqrt st.entries.length = 0 := by omega
          rw [this] at hsq
          omega
        · simp only [Outcome.done.injEq, Prod.mk.injEq] at h
          obtain ⟨ha, hb⟩ := h
          subst ha
          subst hb
          exact ⟨le_rfl, Nat.mul_one _⟩
      · rw [resolve_set st hn h1] at h
        split at h
        · exact absurd h (by simp)
        · rename_i hsq
          simp only [Outcome.done.injEq, Prod.mk.injEq] at h
          obtain ⟨ha, hb⟩ := h
          subst ha
          subst hb
          exact ⟨by omega, not_not.mp hsq⟩
  obtain ⟨h1, h2, h3⟩ := hprod
  refine ⟨?_, h2, h3, ?_⟩
  · by_contra hz
    have : nrows = 0 := by omega
    rw [this] at h3
    omega
  · intro i j hi hj
    rw [← h3]
    calc i * ncols + j < i * ncols + ncols := by omega
      _ = (i + 1) * ncols := by ring
      _ ≤ nrows * ncols := Nat.mul_le_mul_right _ hi

/-- Witness for C20: the entries "1" to "6" with a "..." line after the
third. -/
theorem shape_in_bounds_witness :
    1 ≤ 2 ∧ 1 ≤ 3 ∧
      2 * 3 =
        ({ entries := [[49], [50], [51], [52], [53], [54]], ncols := 3, indent := [] } :
          Collector).entries.length ∧
      ∀ i j, i < 2 → j < 3 → i * 3 + j <
        ({ entries := [[49], [50], [51], [52], [53], [54]], ncols := 3, indent := [] } :
          Collector).entries.length :=
  shape_in_bounds { entries := [[49], [50], [51], [52], [53], [54]], ncols := 3, indent := [] }
    2 3 (by decide)

/-! ## Counting UTF-8 characters -/

set_option maxRecDepth 100000 in
theorem land_192_eq_128 : ∀ b, b < 256 → (b &&& 192 = 128 ↔ 128 ≤ b ∧ b < 192) := by
  decide

theorem getUTF8size_foldl (text : List Nat) (n : Nat) :
    text.foldl (fun n c => if c &&& 192 ≠ 128 then n + 1 else n) n
      = n + getUTF8size text := by
  unfold getUTF8size
  induction text generalizing n with
  | nil => simp
  | cons c text ih =>
    rw [List.foldl_cons, List.foldl_cons, ih, ih (if c &&& 192 ≠ 128 then 0 + 1 else 0)]
    split <;> omega

theorem getUTF8size_cons (c : Nat) (text : List Nat) :
    getUTF8size (c :: text) = (if c &&& 192 ≠ 128 then 1 else 0) + getUTF8size text := by
  have := getUTF8size_foldl text (if c &&& 192 ≠ 128 then 0 + 1 else 0)
  rw [show getUTF8size (c :: text)
      = text.foldl (fun n c => if c &&& 192 ≠ 128 then n + 1 else n)
          (if c &&& 192 ≠ 128 then 0 + 1 else 0) from rfl, this]

theorem getUTF8size_nil : getUTF8size [] = 0 := rfl

theorem getUTF8size_append (a b : List Nat) :
    getUTF8size (a ++ b) = getUTF8size a + getUTF8size b := by
  induction a with
  | nil => simp [getUTF8size_nil]
  | cons c a ih => rw [List.cons_append, getUTF8size_cons, getUTF8size_cons, ih]; omega

theorem getUTF8size_lead (b : Nat) (text : List Nat) (hb : b < 256) (h : b < 128 ∨ 192 ≤ b) :
    getUTF8size (b :: text) = 1 + getUTF8size text := by
  rw [getUTF8size_cons, if_pos]
  rw [Ne, land_192_eq_128 b hb]
  omega

theorem getUTF8size_continuation (x : Nat) (text : List Nat) :
    getUTF8size ((128 + x % 64) :: text) = getUTF8size text := by
  rw [getUTF8size_cons, if_neg, Nat.zero_add]
  rw [Ne, not_not, land_192_eq_128 _ (by omega)]
  omega

/-- The encoding of one code point counts as one character. -/
theorem getUTF8size_utf8Encode (cp : Nat) (h : cp < 1114112) :
    getUTF8size (utf8Encode cp) = 1 := by
  unfold utf8Encode
  split
  · rw [getUTF8size_lead cp [] (by omega) (by omega)]; rfl
  · split
    · rw [getUTF8size_lead _ _ (by omega) (by omega), getUTF8size_continuation]; rfl
    · split
      · rw [getUTF8size_lead _ _ (by omega) (by omega), getUTF8size_continuation,
          getUTF8size_continuation]; rfl
      · rw [getUTF8size_lead _ _ (by omega) (by omega), getUTF8size_continuation,
          getUTF8size_continuation, getUTF8size_continuation]; rfl

/-- C16: on the UTF-8 encoding of a sequence of code points (each at most
U+10FFFF) `getUTF8size` returns the number of code points, however many bytes
each of them takes. -/
theorem getUTF8size_counts_code_points (cps : List Nat) (h : ∀ cp ∈ cps, cp < 1114112) :
    getUTF8size (utf8EncodeAll cps) = cps.length := by
  induction cps with
  | nil => rfl
  | cons cp cps ih =>
    have e : utf8EncodeAll (cp :: cps) = utf8Encode cp ++ utf8EncodeAll cps := by
      simp [utf8EncodeAll]
    rw [e, getUTF8size_append, getUTF8size_utf8Encode cp (h cp (List.mem_cons_self _ _)),
      ih (fun c hc => h c (List.mem_cons_of_mem _ hc)), List.length_cons]
    omega

/-- Witness for C16: the code points U+00E9, U+0061, U+20AC and U+1F600, ten
bytes in all. -/
theorem getUTF8size_counts_code_points_witness :
    getUTF8size (utf8EncodeAll [233, 97, 8364, 128512])
        = ([233, 97, 8364, 128512] : List Nat).length ∧
      (utf8EncodeAll [233, 97, 8364, 128512]).length = 10 :=
  ⟨getUTF8size_counts_code_points [233, 97, 8364, 128512] (by decide), by decide⟩

/-! ## The run as a whole -/

/-- C19 (evaluation at the failing input): on the input " " (one space, no
terminator) the reading loop has not ended after any number of `readLine`
calls: the reader returns 1 with the line " " again and again, the line trims
to the empty string, and no entry is ever added. -/
theorem unterminated_blank_never_ends : ∀ fuel, pmatrixMain fuel [32] = none := by
  have hrd : readLine { src := [], maxBytes := 2048, recent := 32, line := [32] }
      = (1, { src := [], maxBytes := 2048, recent := 32, line := [32] }) := by decide
  have hst : collectLine { entries := [], ncols := 0, indent := [32] } [32]
      = some { entries := [], ncols := 0, indent := [32] } := by decide
  have hloop : ∀ fuel, mainLoop fuel { src := [], maxBytes := 2048, recent := 32, line := [32] }
      { entries := [], ncols := 0, indent := [32] } = none := by
    intro fuel
    induction fuel with
    | zero => rfl
    | succ fuel ih =>
      rw [mainLoop, hrd]
      simp only [getLine, hst]
      rw [if_neg (by decide), if_neg (by decide)]
      exact ih
  have h0 : readLine (LineReader.new [32] 2048)
      = (1, { src := [], maxBytes := 2048, recent := 32, line := [32] }) := by decide
  have hc0 : collectLine Collector.init [32]
      = some { entries := [], ncols := 0, indent := [32] } := by decide
  intro fuel
  cases fuel with
  | zero => rfl
  | succ fuel =>
    unfold pmatrixMain
    rw [mainLoop, h0]
    simp only [getLine, hc0]
    rw [if_neg (by decide), if_neg (by decide), hloop fuel]

theorem intSqrt_eq (n q : Nat) (h1 : q * q ≤ n) (h2 : n < (q + 1) * (q + 1)) :
    intSqrt n = q :=
  (Nat.eq_sqrt.mpr ⟨h1, h2⟩).symm

/-- Running `main` when the reading loop and the checks after it are known. -/
theorem pmatrixMain_done (fuel : Nat) (input : List Nat) (st : Collector) (nrows ncols : Nat)
    (h1 : mainLoop fuel (LineReader.new input 2048) Collector.init = some (.done st))
    (h2 : resolve st = .done (nrows, ncols)) :
    pmatrixMain fuel input
      = some (.done (showMatrix st.indent pmatrixName st.entries nrows ncols)) := by
  unfold pmatrixMain
  rw [h1]
  simp only [h2]

/-- C17 (evaluation at the failing input): for the entries "é" (two bytes,
one character) and "ab" in one column the column width is 2 characters, but
the cell written for "é" gets no fill character, since its size in bytes is
already 2; it has 1 character.  The input "é\nab\n" is rendered that way. -/
theorem multibyte_cell_not_padded :
    columnWidth [[195, 169], [97, 98]] 2 1 0 = 2 ∧
      writeRight (columnWidth [[195, 169], [97, 98]] 2 1 0) [195, 169] = [195, 169] ∧
      getUTF8size (writeRight (columnWidth [[195, 169], [97, 98]] 2 1 0) [195, 169]) = 1 ∧
      pmatrixMain 5 [195, 169, 10, 97, 98, 10]
        = some (.done ([92, 98, 101, 103, 105, 110, 123, 112, 109, 97, 116, 114, 105, 120, 125, 10]
            ++ [32, 32, 195, 169, 32, 92, 92, 10] ++ [32, 32, 97, 98, 10]
            ++ [92, 101, 110, 100, 123, 112, 109, 97, 116, 114, 105, 120, 125, 10])) := by
  refine ⟨by decide, by decide, by decide, ?_⟩
  have h1 : mainLoop 5 (LineReader.new [195, 169, 10, 97, 98, 10] 2048) Collector.init
      = some (.done { entries := [[195, 169], [97, 98]], ncols := 0, indent := [] }) := by
    decide
  have h2 : resolve { entries := [[195, 169], [97, 98]], ncols := 0, indent := [] }
      = .done (2, 1) := by
    rw [resolve_unset _ rfl (by decide)]
    simp only [List.length_cons, List.length_nil]
    rw [intSqrt_eq 2 1 (by decide) (by decide)]
    decide
  rw [pmatrixMain_done 5 _ _ 2 1 h1 h2]
  decide

/-- C15 as stated fails: on the input "\n  a\n" the first line the reader
returns is empty, with an empty indent, but every output line starts with the
two spaces in front of "a". -/
theorem indent_not_from_first_line :
    outputs 1 (LineReader.new [10, 32, 32, 97, 10] 2048) = [(1, [])] ∧
      getIndent [] = [] ∧
      pmatrixMain 5 [10, 32, 32, 97, 10]
        = some (.done ([32, 32, 92, 98, 101, 103, 105, 110, 123, 112, 109, 97, 116, 114, 105,
              120, 125, 10]
            ++ [32, 32, 32, 32, 97, 10]
            ++ [32, 32, 92, 101, 110, 100, 123, 112, 109, 97, 116, 114, 105, 120, 125, 10])) := by
  refine ⟨by decide, by decide, ?_⟩
  have h1 : mainLoop 5 (LineReader.new [10, 32, 32, 97, 10] 2048) Collector.init
      = some (.done { entries := [[97]], ncols := 0, indent := [32, 32] }) := by
    decide
  have h2 : resolve { entries := [[97]], ncols := 0, indent := [32, 32] } = .done (1, 1) := by
    rw [resolve_unset _ rfl (by decide)]
    simp only [List.length_cons, List.length_nil]
    rw [intSqrt_eq 1 1 (by decide) (by decide)]
    decide
  rw [pmatrixMain_done 5 _ _ 1 1 h1 h2]
  decide

/-! ## The indent of the output -/

theorem linesSoFar_append (indent out x : List Nat) (h : LinesSoFar indent out)
    (hx : 10 ∉ x) : LinesSoFar indent (out ++ x) := by
  obtain ⟨ls, cur, ho, hls, hc, hp⟩ := h
  refine ⟨ls, cur ++ x, by rw [ho, List.append_assoc], hls, ?_, ?_⟩
  · intro hm
    rcases List.mem_append.mp hm with hm | hm
    · exact hc hm
    · exact hx hm
  · exact hp.trans (List.prefix_append _ _)

theorem linesSoFar_endl (indent out x : List Nat) (h : LinesSoFar indent out)
    (hi : 10 ∉ indent) (hx : 10 ∉ x) : LinesSoFar indent (out ++ [10] ++ indent ++ x) := by
  obtain ⟨ls, cur, ho, hls, hc, hp⟩ := h
  refine ⟨ls ++ [cur], indent ++ x, ?_, ?_, ?_, List.prefix_append _ _⟩
  · rw [ho]
    simp [List.append_assoc]
  · intro l hl
    rcases List.mem_append.mp hl with hl | hl
    · exact hls l hl
    · simp only [List.mem_singleton] at hl
      subst hl
      exact ⟨hc, hp⟩
  · intro hm
    rcases List.mem_append.mp hm with hm | hm
    · exact hi hm
    · exact hx hm

theorem writeRight_no_endl (w : Nat) (text : List Nat) (h : 10 ∉ text) :
    10 ∉ writeRight w text := by
  unfold writeRight
  intro hm
  rcases List.mem_append.mp hm with hm | hm
  · have := List.eq_of_mem_replicate hm
    omega
  · exact h hm

theorem getD_no_endl (entries : List (List Nat)) (n : Nat) (h : ∀ e ∈ entries, 10 ∉ e) :
    10 ∉ entries.getD n [] := by
  by_cases hn : n < entries.length
  · rw [List.getD_eq_getElem _ _ hn]
    exact h _ (List.getElem_mem hn)
  · rw [List.getD_eq_default _ _ (by omega)]
    simp

theorem showRow_linesSoFar (indent : List Nat) (entries : List (List Nat)) (nrows ncols i : Nat)
    (he : ∀ e ∈ entries, 10 ∉ e) (out : List Nat) (h : LinesSoFar indent out) :
    LinesSoFar indent (showRow entries nrows ncols i out) := by
  unfold showRow
  generalize List.range ncols = js
  induction js generalizing out with
  | nil => exact h
  | cons j js ih =>
    rw [List.foldl_cons]
    apply ih
    apply linesSoFar_append _ _ _ _ (writeRight_no_endl _ _ (getD_no_endl entries _ he))
    split
    · exact linesSoFar_append _ _ _ h (by decide)
    · exact h

/-- What `showMatrix` writes is a sequence of lines, each followed by `endl`
and starting with the indent. -/
theorem showMatrix_lines (indent environment : List Nat) (entries : List (List Nat))
    (nrows ncols : Nat) (hi : 10 ∉ indent) (hv : 10 ∉ environment)
    (he : ∀ e ∈ entries, 10 ∉ e) :
    ∃ ls : List (List Nat),
      showMatrix indent environment entries nrows ncols = (ls.map (· ++ [10])).flatten ∧
        ∀ l ∈ ls, 10 ∉ l ∧ indent <+: l := by
  have h0 : LinesSoFar indent
      (indent ++ ([92, 98, 101, 103, 105, 110, 123] ++ environment ++ [125])) :=
    ⟨[], indent ++ ([92, 98, 101, 103, 105, 110, 123] ++ environment ++ [125]), rfl,
      fun _ hl => by simp at hl, by simp [hi, hv], List.prefix_append _ _⟩
  have hopen : LinesSoFar indent
      (indent ++ [92, 98, 101, 103, 105, 110, 123] ++ environment ++ [125] ++ [10]
        ++ indent ++ [32, 32]) := by
    have := linesSoFar_endl indent _ [32, 32] h0 hi (by decide)
    simpa [List.append_assoc] using this
  have hrows : ∀ (is : List Nat) (out : List Nat), LinesSoFar indent out →
      LinesSoFar indent (is.foldl
        (fun o i => showRow entries nrows ncols i
          (if i > 0 then o ++ [32, 92, 92] ++ [10] ++ indent ++ [32, 32] else o)) out) := by
    intro is
    induction is with
    | nil => intro out h; exact h
    | cons i is ih =>
      intro out h
      rw [List.foldl_cons]
      apply ih
      apply showRow_linesSoFar indent entries nrows ncols i he
      split
      · exact linesSoFar_endl indent _ [32, 32]
          (linesSoFar_append _ _ _ h (by decide)) hi (by decide)
      · exact h
  obtain ⟨ls, cur, ho, hls, hc, hp⟩ := hrows (List.range nrows) _ hopen
  refine ⟨ls ++ [cur] ++ [indent ++ [92, 101, 110, 100, 123] ++ environment ++ [125]], ?_, ?_⟩
  · unfold showMatrix
    simp only []
    rw [ho]
    simp [List.append_assoc]
  · intro l hl
    simp only [List.mem_append, List.mem_singleton] at hl
    rcases hl with (hl | hl) | hl
    · exact hls l hl
    · subst hl
      exact ⟨hc, hp⟩
    · subst hl
      exact ⟨by simp [hi, hv], by simp only [List.append_assoc]; exact List.prefix_append _ _⟩

theorem collectLines_indent_kept (lines : List (List Nat)) :
    ∀ st st2, collectLines st lines = some st2 → st.entries ≠ [] → st2.indent = st.indent := by
  induction lines with
  | nil =>
    intro st st2 h _
    rw [collectLines, Option.some.injEq] at h
    rw [h]
  | cons raw lines ih =>
    intro st st2 h hne
    rw [collectLines] at h
    cases h1 : collectLine st raw with
    | none => rw [h1] at h; exact absurd h (by simp)
    | some st1 =>
      rw [h1] at h
      have hc := collectLine_some st st1 raw h1
      have hi : st1.indent = st.indent := by
        rw [hc.2.2, if_neg]
        cases hs : st.entries with
        | nil => exact absurd hs hne
        | cons _ _ => simp
      rw [ih st1 st2 h (by rw [hc.1]; simp [hne]), hi]

theorem trim_eq_stripEnds (line : List Nat) : trim line = stripEnds line := by
  have := trimLoop_inv line [] [] [] rfl (fun x hx => by simp at hx) rfl (fun _ => rfl)
  simpa [trim] using this

theorem trim_sublist (line : List Nat) : (trim line).Sublist line := by
  rw [trim_eq_stripEnds, stripEnds]
  exact (List.rdropWhile_prefix isWhitespace _).sublist.trans (List.dropWhile_sublist _)

theorem expectedEntries_no_endl (lines : List (List Nat)) (h : ∀ l ∈ lines, NoCRLF l) :
    ∀ e ∈ expectedEntries lines, 10 ∉ e := by
  intro e he
  simp only [expectedEntries, List.mem_map, List.mem_filter] at he
  obtain ⟨t, ⟨⟨l, hl, rfl⟩, _⟩, rfl⟩ := he
  split
  · simp
  · intro hm
    exact (h l hl 10 ((trim_sublist l).subset hm)).2 rfl

theorem getIndent_no_endl (line : List Nat) : 10 ∉ getIndent line := by
  intro hm
  have hg : getIndent line = line.takeWhile isHorizontal := by
    simp [getIndent, getIndentLoop_eq]
  rw [hg] at hm
  have := List.mem_takeWhile_imp hm
  simp [isHorizontal] at this

/-- C15 (amended): when the run reaches rendering, the indent is `getIndent`
of the raw line that gave the first entry (the lines before it give no entry),
whatever lines follow; what `showMatrix` writes is a sequence of lines that all
start with this indent.  The lines come from the reader, so they hold no CR
and no LF. -/
theorem indent_from_first_entry_line (pre post : List (List Nat)) (raw : List Nat)
    (st : Collector) (hlines : ∀ l ∈ pre ++ raw :: post, NoCRLF l)
    (hpre : expectedEntries pre = []) (hraw : expectedEntries [raw] ≠ [])
    (hrun : collectLines Collector.init (pre ++ raw :: post) = some st) :
    st.indent = getIndent raw ∧
      ∀ nrows ncols, ∃ ls : List (List Nat),
        showMatrix st.indent pmatrixName st.entries nrows ncols
            = (ls.map (· ++ [10])).flatten ∧
          ∀ l ∈ ls, 10 ∉ l ∧ getIndent raw <+: l := by
  have hent : st.entries = expectedEntries (pre ++ raw :: post) := by
    simpa [Collector.init] using collectLines_some_entries _ Collector.init st hrun
  rw [collectLines_append] at hrun
  cases ha : collectLines Collector.init pre with
  | none => rw [ha] at hrun; exact absurd hrun (by simp)
  | some sa =>
    rw [ha, Option.some_bind, collectLines] at hrun
    cases hb : collectLine sa raw with
    | none => rw [hb] at hrun; exact absurd hrun (by simp)
    | some sb =>
      rw [hb] at hrun
      have ea : sa.entries = [] := by
        rw [collectLines_some_entries pre _ sa ha, hpre]; rfl
      have hc := collectLine_some sa sb raw hb
      have ib : sb.indent = getIndent raw := by
        rw [hc.2.2, ea]; rfl
      have eb : sb.entries ≠ [] := by
        rw [hc.1, ea]; simpa using hraw
      have hind : st.indent = getIndent raw := by
        rw [collectLines_indent_kept post sb st hrun eb, ib]
      refine ⟨hind, fun nrows ncols => ?_⟩
      rw [hind]
      exact showMatrix_lines (getIndent raw) pmatrixName st.entries nrows ncols
        (getIndent_no_endl raw) (by decide)
        (by rw [hent]; exact expectedEntries_no_endl _ hlines)

/-- Witness for C15: the lines "", "...", "  a", " b". -/
theorem indent_from_first_entry_line_witness :
    ({ entries := [[97], [98]], ncols := 0, indent := [32, 32] } : Collector).indent
        = getIndent [32, 32, 97] ∧
      ∀ nrows ncols, ∃ ls : List (List Nat),
        showMatrix ({ entries := [[97], [98]], ncols := 0, indent := [32, 32] } : Collector).indent
            pmatrixName
            ({ entries := [[97], [98]], ncols := 0, indent := [32, 32] } : Collector).entries
            nrows ncols
            = (ls.map (· ++ [10])).flatten ∧
          ∀ l ∈ ls, 10 ∉ l ∧ getIndent [32, 32, 97] <+: l :=
  indent_from_first_entry_line [[], [46, 46, 46]] [[32, 98]] [32, 32, 97]
    { entries := [[97], [98]], ncols := 0, indent := [32, 32] }
    (by decide) (by decide) (by decide) (by decide)

/-! ## The limit on the number of entries -/

/-- The loop body never lets the number of entries pass 10000. -/
theorem collectLine_length (st st1 : Collector) (raw : List Nat)
    (h : collectLine st raw = some st1) (hlen : st.entries.length ≤ 10000) :
    st1.entries.length ≤ 10000 := by
  simp only [collectLine] at h
  by_cases he : trim raw = []
  · rw [if_pos (show (trim raw).isEmpty = true by simp [he])] at h
    simp only [Option.some.injEq] at h
    subst h
    exact hlen
  · rw [if_neg (isEmpty_ne_true_of_ne he)] at h
    obtain ⟨hle, h⟩ := ite_none_some h
    subst h
    omega

theorem mainLoop_length (fuel : Nat) :
    ∀ (rd : LineReader) (st st2 : Collector), mainLoop fuel rd st = some (.done st2) →
      st.entries.length ≤ 10000 → st2.entries.length ≤ 10000 := by
  induction fuel with
  | zero => intro rd st st2 h; simp [mainLoop] at h
  | succ fuel ih =>
    intro rd st st2 h hlen
    rw [mainLoop] at h
    split at h
    · simp only [Option.some.injEq, Outcome.done.injEq] at h
      subst h
      exact hlen
    · split at h
      · simp at h
      · cases hc : collectLine st (getLine (readLine rd).2) with
        | none => rw [hc] at h; simp at h
        | some st1 =>
          rw [hc] at h
          exact ih _ st1 st2 h (collectLine_length st st1 _ hc hlen)

/-- The reading loop handles the lines of calls that returned 1 the way
`collectLines` does. -/
theorem mainLoop_delivered (n : Nat) :
    ∀ (rd : LineReader) (st : Collector) (fuel : Nat), (∀ p ∈ outputs n rd, p.1 = 1) →
      mainLoop (fuel + n) rd st =
        match collectLines st (delivered n rd) with
        | none => some (.failed .tooManyEntries)
        | some st1 => mainLoop fuel (afterCalls n rd) st1 := by
  induction n with
  | zero => intro rd st fuel _; rfl
  | succ n ih =>
    intro rd st fuel h
    have h1 : (readLine rd).1 = 1 := h _ (by rw [outputs]; exact List.mem_cons_self _ _)
    have h2 : ∀ p ∈ outputs n (readLine rd).2, p.1 = 1 :=
      fun p hp => h p (by rw [outputs]; exact List.mem_cons_of_mem _ hp)
    have hd : delivered (n + 1) rd = getLine (readLine rd).2 :: delivered n (readLine rd).2 := by
      simp [delivered, outputs]
    rw [show fuel + (n + 1) = (fuel + n) + 1 from rfl, mainLoop, h1, if_neg (by decide),
      if_neg (by decide), hd, collectLines, afterCalls]
    cases hc : collectLine st (getLine (readLine rd).2) with
    | none => rfl
    | some st1 => exact ih _ st1 fuel h2

theorem collectLines_length (lines : List (List Nat)) :
    ∀ st st2, collectLines st lines = some st2 → st.entries.length ≤ 10000 →
      st2.entries.length ≤ 10000 := by
  induction lines with
  | nil =>
    intro st st2 h hlen
    rw [collectLines, Option.some.injEq] at h
    rw [← h]
    exact hlen
  | cons raw lines ih =>
    intro st st2 h hlen
    rw [collectLines] at h
    cases h1 : collectLine st raw with
    | none => rw [h1] at h; exact absurd h (by simp)
    | some st1 =>
      rw [h1] at h
      exact ih st1 st2 h (collectLine_length st st1 raw h1 hlen)

theorem readLine_zero_of_empty (rd : LineReader) (hm : 1 ≤ rd.maxBytes) (hsrc : rd.src = [])
    (hs : seed rd.recent = []) : (readLine rd).1 = 0 := by
  rw [readLine_eq rd hm, hsrc, hs]
  simp [readLoop, checkExtracted]

/-- Lines that fit below the limit, each followed by LF, are delivered one per
call with value 1. -/
theorem outputs_short_lines (lines : List (List Nat)) :
    ∀ (rd : LineReader) (rest : List Nat), 1 ≤ rd.maxBytes →
      rd.src = terminated [10] lines ++ rest → AllNoCRLF lines →
      (∀ l ∈ lines, (l.length : Int) ≤ rd.maxBytes) → rd.recent ≠ 13 → seed rd.recent = [] →
      outputs lines.length rd = lines.map (fun l => (1, l)) ∧
        (afterCalls lines.length rd).src = rest ∧
        (afterCalls lines.length rd).maxBytes = rd.maxBytes ∧
        seed (afterCalls lines.length rd).recent = [] := by
  induction lines with
  | nil =>
    intro rd rest _ hsrc _ _ _ hs
    exact ⟨rfl, by simpa [terminated] using hsrc, rfl, hs⟩
  | cons l ls ih =>
    intro rd rest hm hsrc hall hfit hr hs
    have hsrc2 : rd.src = l ++ 10 :: (terminated [10] ls ++ rest) := by
      rw [hsrc]; simp [terminated]
    have hrl := readLine_fits rd l (terminated [10] ls ++ rest) 10 hm hsrc2
      (hall l (List.mem_cons_self _ _)) (Or.inl rfl) hr
      (by rw [hs]; simpa using hfit l (List.mem_cons_self _ _))
    rw [hs, List.nil_append] at hrl
    obtain ⟨h1, h2, h3, h4⟩ := ih (readLine rd).2 rest (by rw [hrl]; exact hm) (by rw [hrl])
      (allNoCRLF_tail hall) (by rw [hrl]; exact fun x hx => hfit x (List.mem_cons_of_mem _ hx))
      (by rw [hrl]; exact (by decide : (10 : Nat) ≠ 13)) (by rw [hrl]; exact seed_lf)
    refine ⟨?_, ?_, ?_, ?_⟩
    · rw [List.length_cons, outputs, h1, hrl]
      rfl
    · rw [List.length_cons, afterCalls, h2]
    · rw [List.length_cons, afterCalls, h3, hrl]
    · rw [List.length_cons, afterCalls, h4]

theorem expectedEntries_replicate (k : Nat) :
    expectedEntries (List.replicate k [97]) = List.replicate k [97] := by
  induction k with
  | zero => rfl
  | succ k ih =>
    rw [List.replicate_succ, expectedEntries_cons, ih]
    rfl

/-- The reader on `k` lines "a", each followed by LF. -/
theorem outputs_replicate (k : Nat) :
    outputs k (LineReader.new (terminated [10] (List.replicate k [97])) 2048)
        = List.replicate k (1, [97]) ∧
      (readLine (afterCalls k
        (LineReader.new (terminated [10] (List.replicate k [97])) 2048))).1 = 0 := by
  have h := outputs_short_lines (List.replicate k [97])
    (LineReader.new (terminated [10] (List.replicate k [97])) 2048) []
    (show (1 : Int) ≤ 2048 by decide) (by simp [LineReader.new])
    (fun l hl => by rw [List.eq_of_mem_replicate hl]; decide)
    (fun l hl => by
      rw [List.eq_of_mem_replicate hl]
      show (([97] : List Nat).length : Int) ≤ 2048
      decide)
    (show (0 : Nat) ≠ 13 by decide) (show seed 0 = [] by decide)
  rw [List.length_replicate, List.map_replicate] at h
  exact ⟨h.1, readLine_zero_of_empty _ (by rw [h.2.2.1]; show (1 : Int) ≤ 2048; decide) h.2.1 h.2.2.2⟩

/-- C13: when the lines the reader has delivered stand for more than 10000
entries the run ends with "too many entries given", whatever follows in the
input; when they stand for at most 10000 entries and the reader then returns
0 the reading loop ends with exactly these entries; and the reading loop never
ends with more than 10000 entries, so `showMatrix` is never called with more. -/
theorem entry_limit_enforced (rd : LineReader) (n fuel : Nat)
    (hdel : ∀ p ∈ outputs n rd, p.1 = 1) :
    ((expectedEntries (delivered n rd)).length > 10000 →
        mainLoop (fuel + n) rd Collector.init = some (.failed .tooManyEntries)) ∧
      ((expectedEntries (delivered n rd)).length ≤ 10000 →
        (readLine (afterCalls n rd)).1 = 0 →
        ∃ st, mainLoop (fuel + 1 + n) rd Collector.init = some (.done st) ∧
          st.entries = expectedEntries (delivered n rd)) ∧
      ∀ st, mainLoop fuel rd Collector.init = some (.done st) → st.entries.length ≤ 10000 := by
  refine ⟨?_, ?_, ?_⟩
  · intro hlen
    rw [mainLoop_delivered n rd Collector.init fuel hdel]
    cases hc : collectLines Collector.init (delivered n rd) with
    | none => rfl
    | some st1 =>
      exfalso
      have he := collectLines_some_entries _ _ st1 hc
      have hl := collectLines_length _ _ st1 hc (by simp [Collector.init])
      rw [he] at hl
      simp only [Collector.init, List.nil_append] at hl
      omega
  · intro hlen hzero
    obtain ⟨st, hst⟩ := collectLines_ok (delivered n rd) Collector.init
      (by simpa [Collector.init] using hlen)
    refine ⟨st, ?_, ?_⟩
    · rw [mainLoop_delivered n rd Collector.init (fuel + 1) hdel, hst]
      simp only []
      rw [mainLoop, if_pos hzero]
    · simpa [Collector.init] using collectLines_some_entries _ _ st hst
  · intro st h
    exact mainLoop_length fuel rd Collector.init st h (by simp [Collector.init])

/-- Witness for C13: 10001 lines "a" end the run with "too many entries
given"; 10000 lines "a" are accepted. -/
theorem entry_limit_enforced_witness :
    mainLoop (0 + 10001)
        (LineReader.new (terminated [10] (List.replicate 10001 [97])) 2048) Collector.init
        = some (.failed .tooManyEntries) ∧
      ∃ st, mainLoop (0 + 1 + 10000)
          (LineReader.new (terminated [10] (List.replicate 10000 [97])) 2048) Collector.init
          = some (.done st) ∧
        st.entries = expectedEntries (delivered 10000
          (LineReader.new (terminated [10] (List.replicate 10000 [97])) 2048)) :=
  ⟨(entry_limit_enforced
      (LineReader.new (terminated [10] (List.replicate 10001 [97])) 2048) 10001 0
      (by
        rw [(outputs_replicate 10001).1]
        intro p hp
        rw [List.eq_of_mem_replicate hp])).1
      (by
        rw [delivered, (outputs_replicate 10001).1, List.map_replicate,
          expectedEntries_replicate, List.length_replicate]
        decide),
    (entry_limit_enforced
      (LineReader.new (terminated [10] (List.replicate 10000 [97])) 2048) 10000 0
      (by
        rw [(outputs_replicate 10000).1]
        intro p hp
        rw [List.eq_of_mem_replicate hp])).2.1
      (by
        rw [delivered, (outputs_replicate 10000).1, List.map_replicate,
          expectedEntries_replicate, List.length_replicate])
      (outputs_replicate 10000).2⟩

/-! ## Streams of blank lines -/

theorem blank_noCRLF (l : List Nat) (h : ∀ b ∈ l, b = 9 ∨ b = 32) : NoCRLF l := by
  intro b hb
  rcases h b hb with h | h <;> subst h <;> decide

theorem trim_blank (l : List Nat) (h : ∀ b ∈ l, b = 9 ∨ b = 32) : trim l = [] := by
  rw [trim_eq_stripEnds, stripEnds]
  have : l.dropWhile isWhitespace = [] := by
    rw [List.dropWhile_eq_nil_iff]
    intro b hb
    rcases h b hb with h | h <;> subst h <;> decide
  rw [this]
  rfl

theorem collectLine_blank (st : Collector) (raw : List Nat) (h : trim raw = []) :
    ∃ st1, collectLine st raw = some st1 ∧ st1.entries = st.entries := by
  simp only [collectLine]
  rw [if_pos (show (trim raw).isEmpty = true by simp [h])]
  exact ⟨_, rfl, rfl⟩

theorem segmentsStream_cons (l : List Nat) (t : Nat) (segs : List (List Nat × Nat)) :
    segmentsStream ((l, t) :: segs) = l ++ t :: segmentsStream segs := by
  simp [segmentsStream]

theorem recentAfter_ne_cr_of_ne_nil (l : List Nat) (r : Nat) (hl : NoCRLF l) (hne : l ≠ []) :
    recentAfter r l ≠ 13 := by
  cases l with
  | nil => exact absurd rfl hne
  | cons c l => exact recentAfter_ne_cr l c (noCRLF_tail hl) (noCRLF_head hl).1

/-- One run of the extraction loop on a stream of blank lines: it ends with
value 0 and an empty stream, or with value 1, a blank line and fewer lines
left. -/
theorem readLoop_blank (segs : List (List Nat × Nat)) (hsegs : BlankSegments segs) :
    ∀ r : Nat, ∃ segs2 : List (List Nat × Nat),
      (readLoop 2048 (segmentsStream segs) 0 0 r []).src = segmentsStream segs2 ∧
        BlankSegments segs2 ∧
        (∀ b ∈ (readLoop 2048 (segmentsStream segs) 0 0 r []).line, b = 9 ∨ b = 32) ∧
        (seed r = [] → seed (readLoop 2048 (segmentsStream segs) 0 0 r []).recent = []) ∧
        (((readLoop 2048 (segmentsStream segs) 0 0 r []).ret = 0 ∧ segs2 = []) ∨
          ((readLoop 2048 (segmentsStream segs) 0 0 r []).ret = 1 ∧
            segs2.length < segs.length)) := by
  induction segs with
  | nil =>
    intro r
    exact ⟨[], rfl, hsegs, fun b hb => by simp [segmentsStream, readLoop] at hb,
      fun h => h, Or.inl ⟨rfl, rfl⟩⟩
  | cons s segs ih =>
    intro r
    obtain ⟨l, t⟩ := s
    have hs : (∀ b ∈ l, b = 9 ∨ b = 32) ∧ l.length ≤ 2048 ∧ (t = 10 ∨ t = 13) :=
      hsegs (l, t) (List.mem_cons_self _ _)
    have hrest : BlankSegments segs := fun x hx => hsegs x (List.mem_cons_of_mem _ hx)
    have hl : NoCRLF l := blank_noCRLF l hs.1
    rw [segmentsStream_cons]
    by_cases habs : l = [] ∧ t = 10 ∧ r = 13
    · obtain ⟨h1, h2, h3⟩ := habs
      subst h1; subst h2; subst h3
      rw [List.nil_append, readLoop_lf_absorbed]
      obtain ⟨segs2, a, b, c, d, e⟩ := ih hrest 10
      refine ⟨segs2, a, b, c, fun _ => d seed_lf, ?_⟩
      rcases e with e | e
      · exact Or.inl e
      · exact Or.inr ⟨e.1, by simp only [List.length_cons]; omega⟩
    · have hplain := readLoop_plain 2048 l (t :: segmentsStream segs) 0 0 r [] hl
        (by have := hs.2.1; omega)
      have hterm : readLoop 2048 (t :: segmentsStream segs) (0 + (l.length : Int))
          (0 + (l.length : Int)) (recentAfter r l) ([] ++ l)
          = { ret := checkExtracted (0 + (l.length : Int) + 1), src := segmentsStream segs,
              recent := t, line := [] ++ l } := by
        rcases hs.2.2 with ht | ht
        · subst ht
          apply readLoop_lf
          by_cases hne : l = []
          · subst hne
            intro h13
            exact habs ⟨rfl, rfl, h13⟩
          · exact recentAfter_ne_cr_of_ne_nil l r hl hne
        · subst ht
          apply readLoop_cr
      rw [hplain, hterm]
      refine ⟨segs, rfl, hrest, by simpa using hs.1, fun _ => ?_, Or.inr ⟨?_, by simp⟩⟩
      · rcases hs.2.2 with ht | ht
        · subst ht; exact seed_lf
        · subst ht; exact seed_cr
      · exact checkExtracted_pos (by positivity)

/-- On a stream of blank lines the reading loop ends without any entry. -/
theorem mainLoop_blank (N : Nat) :
    ∀ (segs : List (List Nat × Nat)) (rd : LineReader) (st : Collector) (fuel : Nat),
      segs.length ≤ N → BlankSegments segs → rd.maxBytes = 2048 →
      rd.src = segmentsStream segs → seed rd.recent = [] → st.entries = [] →
      segs.length < fuel →
      ∃ st2, mainLoop fuel rd st = some (.done st2) ∧ st2.entries = [] := by
  induction N with
  | zero =>
    intro segs rd st fuel hN hsegs hm hsrc hseed hst hfuel
    have hnil : segs = [] := List.length_eq_zero.mp (by omega)
    subst hnil
    obtain ⟨fuel, rfl⟩ : ∃ k, fuel = k + 1 := ⟨fuel - 1, by omega⟩
    have hz : (readLine rd).1 = 0 :=
      readLine_zero_of_empty rd (by rw [hm]; decide) hsrc hseed
    exact ⟨st, by rw [mainLoop, if_pos hz], hst⟩
  | succ N ih =>
    intro segs rd st fuel hN hsegs hm hsrc hseed hst hfuel
    obtain ⟨fuel, rfl⟩ : ∃ k, fuel = k + 1 := ⟨fuel - 1, by omega⟩
    have hrl := readLine_eq rd (by rw [hm]; decide)
    rw [hseed, hm, hsrc] at hrl
    simp only [List.length_nil, Nat.cast_zero] at hrl
    obtain ⟨segs2, h1, h2, h3, h4, h5⟩ := readLoop_blank segs hsegs rd.recent
    rcases h5 with ⟨hret, _⟩ | ⟨hret, hlen⟩
    · have hz : (readLine rd).1 = 0 := by rw [hrl]; exact hret
      exact ⟨st, by rw [mainLoop, if_pos hz], hst⟩
    · have h1r : (readLine rd).1 = 1 := by rw [hrl]; exact hret
      have hline : trim (getLine (readLine rd).2) = [] := by
        rw [hrl]
        exact trim_blank _ h3
      obtain ⟨st1, hc, he⟩ := collectLine_blank st _ hline
      obtain ⟨st2, hm2, he2⟩ := ih segs2 (readLine rd).2 st1 fuel (by omega) h2
        (by rw [hrl]) (by rw [hrl]; exact h1) (by rw [hrl]; exact h4 hseed)
        (by rw [he, hst]) (by omega)
      refine ⟨st2, ?_, he2⟩
      rw [mainLoop, h1r, if_neg (by decide), if_neg (by decide), hc]
      exact hm2

/-- C14 as stated fails: a line of 2049 spaces followed by LF trims to the
empty string, but the run ends with "line exceeds maximum number of bytes". -/
theorem long_blank_line_too_long :
    trim (List.replicate 2049 32) = [] ∧
      pmatrixMain 1 (List.replicate 2049 32 ++ [10]) = some (.failed .lineTooLong) := by
  have hb : ∀ b ∈ List.replicate 2049 32, b = 9 ∨ b = 32 :=
    fun b hb => Or.inr (List.eq_of_mem_replicate hb)
  refine ⟨trim_blank _ hb, ?_⟩
  have hcut := readLine_cut (LineReader.new (List.replicate 2049 32 ++ [10]) 2048)
    (List.replicate 2049 32) [10] 2048 rfl (by decide) rfl (blank_noCRLF _ hb)
    (by
      rw [List.length_append, List.length_replicate]
      show 2048 < (seed 0).length + 2049
      omega)
  have h2 : (readLine (LineReader.new (List.replicate 2049 32 ++ [10]) 2048)).1 = 2 := by
    rw [hcut]
  unfold pmatrixMain
  rw [mainLoop, h2, if_neg (by decide), if_pos rfl]

/-- C14 (amended): for every input stream made of lines of at most 2048 tab
and space bytes, each followed by LF or CR (a CR+LF pair being CR followed by
an empty line with LF), the run ends with "no entries given" as soon as it is
given more `readLine` calls than there are terminator bytes; nothing is
written to the output. -/
theorem blank_stream_no_entries (segs : List (List Nat × Nat)) (fuel : Nat)
    (hsegs : BlankSegments segs) (hfuel : segs.length < fuel) :
    pmatrixMain fuel (segmentsStream segs) = some (.failed .noEntries) := by
  obtain ⟨st2, h1, h2⟩ := mainLoop_blank segs.length segs
    (LineReader.new (segmentsStream segs) 2048) Collector.init fuel le_rfl hsegs rfl rfl
    (show seed 0 = [] by decide) rfl hfuel
  unfold pmatrixMain
  rw [h1]
  simp only [resolve, h2, List.isEmpty_nil, if_true]

/-- Witness for C14: the stream " \n", "\t\r\n", "\r". -/
theorem blank_stream_no_entries_witness :
    pmatrixMain 5 (segmentsStream [([32], 10), ([9], 13), ([], 10), ([], 13)])
      = some (.failed .noEntries) :=
  blank_stream_no_entries [([32], 10), ([9], 13), ([], 10), ([], 13)] 5
    (by
      intro s hs
      simp only [List.mem_cons, List.mem_singleton, List.not_mem_nil, or_false] at hs
      rcases hs with h | h | h | h <;> subst h <;> decide)
    (by decide)

end PMatrix
